import Mathlib

/-
  Verification of the fortpy code-element model (src/fortpy/elements.py)
  against its natural-language specification.

  The Python source is shallowly embedded: Python ints are modelled as Int,
  Python dicts as association lists (insertion order preserved, as in
  CPython), Python lists as List, and fallible operations (attribute errors,
  type errors, index errors) as Option/Except results.

  Layout: all definitions first, then all theorems.
-/

namespace Fortpy

/-! # Definitions -/

/-! ## Ownership chain and full_name (CodeElement.full_name, elements.py 116-129)

A code element's identity for naming purposes is its `name` together with the
chain of `parent` references.  The `_full_name` cache is write-once and pure,
so it is modelled by the computed value itself. -/

/-- A code element reduced to the fields that `full_name` reads: its `name`
and its (optional) `parent`. -/
inductive Anc where
  | mk (name : String) (parent : Option Anc)

def Anc.name : Anc → String
  | .mk n _ => n

def Anc.parent : Anc → Option Anc
  | .mk _ p => p

/-- The `ancestors` list built by `CodeElement.full_name`:
`ancestors = [self.name]`, then every non-None parent's name is appended
walking up the chain. -/
def ancestorNames : Anc → List String
  | .mk n none => [n]
  | .mk n (some p) => n :: ancestorNames p

/-- Python's `".".join(list)`: empty string for an empty list, the sole
element for a singleton, and elements interleaved with "." otherwise. -/
def joinDot : List String → String
  | [] => ""
  | [s] => s
  | s :: rest => s ++ "." ++ joinDot rest

/-- `CodeElement.full_name`: `".".join(ancestors)` where `ancestors` starts
with the element's own name and then walks the parent chain upward. -/
def full_name (e : Anc) : String :=
  joinDot (ancestorNames e)

/-! ## Docstring list and overwrite_docs (CodeElement.overwrite_docs, 32-42) -/

/-- A documentation fragment: the fields read by `overwrite_docs` and the
`pointsto` property, plus `contents` to distinguish distinct fragments. -/
structure DocElement where
  doctype : String
  attributes : List (String × String)
  contents : String
deriving DecidableEq

/-- `DocElement.pointsto`: the lower-cased "name" attribute when present,
None otherwise (elements.py 1184-1192). -/
def DocElement.pointsto (d : DocElement) : Option String :=
  match List.lookup "name" d.attributes with
  | some v => some v.toLower
  | none => none

/-- The duplicate test in `overwrite_docs`: an existing entry is overwritten
when its `doctype` and `pointsto` both equal the incoming document's. -/
def sameSlot (existing doc : DocElement) : Bool :=
  existing.doctype == doc.doctype && existing.pointsto == doc.pointsto

/-- The deletion loop of `overwrite_docs`: delete the first entry with the
same (doctype, pointsto) as `doc`, then stop (the loop breaks). -/
def removeFirstSlot : List DocElement → DocElement → List DocElement
  | [], _ => []
  | d :: rest, doc => if sameSlot d doc then rest else d :: removeFirstSlot rest doc

/-- `CodeElement.overwrite_docs`: delete the first same-slot entry (if any),
then append the new document at the end. -/
def overwrite_docs (docstring : List DocElement) (doc : DocElement) : List DocElement :=
  removeFirstSlot docstring doc ++ [doc]

/-- The number of entries of a docstring list that occupy the
(doctype, pointsto) slot of `doc`. -/
def slotCount (l : List DocElement) (doc : DocElement) : Nat :=
  l.countP (fun d => sameSlot d doc)

def c3d1 : DocElement := ⟨"summary", [], "first"⟩

def c3d2 : DocElement := ⟨"summary", [], "second"⟩

/-! ## Section classification (Decoratable.find_section, elements.py 267-285) -/

/-- The offset fields read by `find_section`.  All Decoratable instances in
the source also inherit from CodeElement, so `start` and `end` are always
present (the field `end` is renamed `stop`: `end` is reserved in Lean). -/
structure Decoratable where
  docstart : Int
  docend : Int
  start : Int
  stop : Int
deriving DecidableEq

/-- `Decoratable.find_section(charindex)`, translated statement by statement:
the signature test runs first, then the body test; the docstring test only
fires when `result` is still None afterwards. -/
def find_section (e : Decoratable) (charindex : Int) : Option String :=
  let result : Option String :=
    if charindex > e.docend ∧ charindex - e.start < 8 then some "signature"
    else if e.start ≤ charindex ∧ charindex ≤ e.stop then some "body"
    else none
  if result = none ∧ e.docstart ≤ charindex ∧ charindex ≤ e.docend then
    some "docstring"
  else result

/-! ## Documentation warnings (CodeElement.warn 151-154, Module.warn 882-886) -/

/-- The Python exceptions raised by the warn methods. -/
inductive PyErr where
  | typeError
  | attributeError
deriving DecidableEq

/-- The CodeElement fields read by the warn methods. -/
structure WarnElement where
  name : String
  modifiers : List String
  docstring : List DocElement

/-- `CodeElement.has_docstring` is a property computing
`type(self.docstring) != type(None)`; `docstring` is initialized to a list
and only ever appended to, so the comparison is always True. -/
def has_docstring (_e : WarnElement) : Bool :=
  true

/-- Python call semantics on a bool value: `b()` raises TypeError because a
bool is not callable. -/
def callBool (_b : Bool) : Except PyErr Bool :=
  .error .typeError

/-- `CodeElement.warn(collection)`: evaluates `self.has_docstring()` — the
property access yields a bool, which the call expression then invokes. -/
def CodeElement_warn (e : WarnElement) (collection : List String) :
    Except PyErr (List String) := do
  let b ← callBool (has_docstring e)
  if !b then
    pure (collection ++ ["WARNING: no docstring on code element " ++ e.name])
  else
    pure collection

/-- The method found by `super(CodeElement, self).warn` from Module.warn:
attribute lookup continues in the MRO *after* CodeElement (Decoratable, then
object), neither of which defines `warn`, so no method is found. -/
def superCodeElement_warn :
    Option (WarnElement → List String → Except PyErr (List String)) :=
  none

/-- `Module.warn(collection)`: first `super(CodeElement, self).warn(collection)`
(which fails attribute lookup), then the implicit-none check. -/
def Module_warn (m : WarnElement) (collection : List String) :
    Except PyErr (List String) :=
  match superCodeElement_warn with
  | some f => do
      let c1 ← f m collection
      if ¬ ("implicit none" ∈ m.modifiers) then
        pure (c1 ++ ["WARNING: implicit none not set in " ++ m.name])
      else
        pure c1
  | none => .error .attributeError

/-! ## Parameter access (Executable.get_parameter, elements.py 439-448) -/

/-- A declared value: the fields that identify a parameter. -/
structure ValueElement where
  name : String
  dtype : Option String
deriving DecidableEq

/-- The Executable fields read by `get_parameter`: the ordered list of
lower-cased parameter names and the name-keyed parameter dictionary. -/
structure ExecParams where
  paramorder : List String
  parameters : List (String × ValueElement)

/-- `Executable.get_parameter(index)`: `result = None`; only when
`index > 0 and index < len(self.paramorder)` is `paramorder[index]` looked
up in the parameter dictionary. -/
def get_parameter (e : ExecParams) (index : Int) : Option ValueElement :=
  if index > 0 ∧ index < (e.paramorder.length : Int) then
    match e.paramorder.get? index.toNat with
    | some key =>
      match List.lookup key e.parameters with
      | some p => some p
      | none => none
    | none => none
  else none

def c10exec : ExecParams :=
  ⟨["a", "b"], [("a", ⟨"a", some "integer"⟩), ("b", ⟨"b", some "integer"⟩)]⟩

/-! ## Module text index and update engine (Module.charindex 1076-1084,
Module.linenum 1086-1115, Module.contains_index 816-844,
Module.update_elements 929-980)

The lazily-built _lines and _chars caches are pure derivations of refstring
and are modelled by recomputation; the _contains_index cache is observable
(update_elements resets it and the property stores into it), so it is kept
as a field. -/

/-- Python str.split("\n") on the character list of a string: always yields
at least one (possibly empty) piece. -/
def splitNl : List Char → List (List Char)
  | [] => [[]]
  | c :: rest =>
      match splitNl rest with
      | [] => [[]]
      | line :: more =>
        if c = '\n' then [] :: line :: more else (c :: line) :: more

/-- Python str.lower() restricted to ASCII letters (the scanned keyword and
Fortran source text are ASCII). -/
def lowerCh (c : Char) : Char :=
  if 'A' ≤ c ∧ c ≤ 'Z' then Char.ofNat (c.toNat + 32) else c

/-- needle occurs at the head of hay. -/
def headMatch : List Char → List Char → Bool
  | [], _ => true
  | _ :: _, [] => false
  | a :: ra, b :: rb => a == b && headMatch ra rb

/-- Python substring containment: needle in hay. -/
def containsSub (needle : List Char) : List Char → Bool
  | [] => headMatch needle []
  | c :: rest => headMatch needle (c :: rest) || containsSub needle rest

/-- A type or executable as seen by the update engine: CodeElement and
Decoratable offsets plus the `embedded` flag (true when the parent is not
the Module; contains_index skips embedded types). -/
structure RtElement where
  start : Int
  stop : Int
  docstart : Int
  docend : Int
  embedded : Bool
deriving DecidableEq

/-- A module-level member (a ValueElement): no external docstring offsets,
so its effective start is its start. -/
structure Member where
  start : Int
  stop : Int
deriving DecidableEq

/-- The Module fields consulted by charindex, linenum, contains_index and
update_elements. -/
structure Module where
  refstring : String
  types : List RtElement
  members : List Member
  executables : List RtElement
  containsCache : Option Int
deriving DecidableEq

/-- `self._lines` after the lazy build in linenum: refstring.split("\n"),
except that an empty refstring skips the build and leaves the list empty. -/
def linesOf (m : Module) : List (List Char) :=
  if m.refstring = "" then [] else splitNl m.refstring.data

/-- The `self._chars[-1] -= 1` adjustment: decrement the final entry. -/
def decLast : List Int → List Int
  | [] => []
  | [a] => [a - 1]
  | a :: rest => a :: decLast rest

/-- The running-total loop of linenum: entry i becomes the cumulative
character count through line i. -/
def prefixSums : Int → List Int → List Int
  | _, [] => []
  | acc, a :: rest => (acc + a) :: prefixSums (acc + a) rest

/-- `self._chars` after the lazy build: len(line)+1 per line, final entry
decremented (no trailing line break), then cumulative sums. -/
def charsOf (m : Module) : List Int :=
  prefixSums 0 (decLast ((linesOf m).map (fun l => (l.length : Int) + 1)))

/-- The result values of Module.linenum: a [line, chars[line] - index] pair,
the [-1, -1] pair for an unindexed module, or the bare integer -1 when no
line reaches the index. -/
inductive LNResult where
  | found (line : Nat) (dist : Int)
  | pairUnknown
  | intUnknown
deriving DecidableEq

/-- The search loop of linenum: the first i with index ≤ chars[i], paired
with chars[i] - index. -/
def findLine : List Int → Int → Nat → Option (Nat × Int)
  | [], _, _ => none
  | c :: rest, index, i =>
    if index ≤ c then some (i, c - index) else findLine rest index (i + 1)

/-- `Module.linenum(index)`. -/
def linenum (m : Module) (index : Int) : LNResult :=
  if (linesOf m).length > 0 then
    match findLine (charsOf m) index 0 with
    | some (i, d) => .found i d
    | none => .intUnknown
  else .pairUnknown

/-- Python list subscripting with negative wrap-around; none is an
IndexError. -/
def pyIdx {α : Type} (l : List α) (i : Int) : Option α :=
  let j := if i < 0 then i + l.length else i
  if 0 ≤ j ∧ j < (l.length : Int) then l.get? j.toNat else none

/-- `Module.charindex(line, column)`: `self._chars[line - 1] + column` (the
index is built first; an empty refstring leaves _chars empty and the
subscript raises IndexError). -/
def charindex (m : Module) (line column : Int) : Option Int :=
  match pyIdx (charsOf m) (line - 1) with
  | some v => some (v + column)
  | none => none

/-- `self.linenum(max_t)[0]` in contains_index: subscripting the pair
results yields the first entry, subscripting the bare integer -1 raises
TypeError (none). -/
def lnFirst : LNResult → Option Int
  | .found i _ => some (i : Int)
  | .pairUnknown => some (-1)
  | .intUnknown => none

/-- max_t in contains_index: the largest end offset over the non-embedded
types, 0 when there are none. -/
def maxTypeEnd (types : List RtElement) : Int :=
  types.foldl (fun acc t => if t.stop > acc ∧ ¬ t.embedded then t.stop else acc) 0

/-- The scanning while-loop of contains_index: starting at line start + i,
at most `steps` further lines are examined; the first whose lower-cased text
contains "contains" is returned.  some none means the loop finished without
a hit; none is an IndexError from the _lines subscript. -/
def scanContains (lines : List (List Char)) (start : Int) (i : Nat) :
    Nat → Option (Option Int)
  | 0 => some none
  | steps + 1 =>
    match pyIdx lines (start + (i : Int)) with
    | none => none
    | some line =>
      if containsSub "contains".data (line.map lowerCh) then
        some (some (start + (i : Int)))
      else scanContains lines start (i + 1) steps

/-- `Module.contains_index`: the cached value if present, else computed from
the max-type-end heuristic and the keyword scan; when the scan finds nothing
the boundary is the last line.  none models an uncaught exception. -/
def contains_index (m : Module) : Option Int :=
  match m.containsCache with
  | some v => some v
  | none =>
    let mt := maxTypeEnd m.types
    match lnFirst (linenum m mt) with
    | none => none
    | some start =>
      let maxI : Nat := if mt > 0 then 10 else (linesOf m).length
      match scanContains (linesOf m) start 0 maxI with
      | none => none
      | some (some v) => some v
      | some none => some ((linesOf m).length - 1)

/-- `CodeElement.absstart` (elements.py 78-85): docstart when positive, else
start. -/
def absstart (e : RtElement) : Int :=
  if e.docstart > 0 then e.docstart else e.start

/-- `Module._update_char_check` (963-973). -/
def update_char_check (e : RtElement) (target docdelta : Int) : Bool :=
  if docdelta ≠ 0 then
    if e.docstart ≤ target ∧ e.docend ≥ target - docdelta then true
    else decide (absstart e > target)
  else decide (absstart e > target)

/-- `Module._element_charfix` (975-980): shift start, docstart, end and
docend by charcount. -/
def element_charfix (e : RtElement) (charcount : Int) : RtElement :=
  { e with start := e.start + charcount, docstart := e.docstart + charcount,
           stop := e.stop + charcount, docend := e.docend + charcount }

/-- `Module.update_elements(line, column, charcount, docdelta)` (929-961):
target = charindex(line, column) + charcount; before the contains boundary
the types (absstart rule with the docdelta refinement) and members (plain
start rule) shift, and the boundary cache is cleared; at or after the
boundary the executables shift (the contains_index property having stored
its computed value). -/
def update_elements (m : Module) (line column charcount docdelta : Int) :
    Option Module :=
  match charindex m line column with
  | none => none
  | some ci =>
    let target := ci + charcount
    match contains_index m with
    | none => none
    | some ic =>
      if line < ic then
        some { m with
          types := m.types.map (fun t =>
            if update_char_check t target docdelta then element_charfix t charcount
            else t),
          members := m.members.map (fun mem =>
            if mem.start > target then
              { mem with start := mem.start + charcount,
                         stop := mem.stop + charcount }
            else mem),
          containsCache := none }
      else
        some { m with
          executables := m.executables.map (fun x =>
            if update_char_check x target docdelta then element_charfix x charcount
            else x),
          containsCache := some ic }

/-! ## Executable.changed (elements.py 367-421)

`changed` walks the call-dependency graph through the project-wide registry
(`self.module.parent.get_executable`), threading the mutable `checked` list
through every call (Python mutates one shared list in place).  The embedding
passes the list explicitly and returns the updated list alongside the return
value.  Recursion is bounded by explicit fuel; running out of fuel is the
outer `none`. -/

/-- Python str.lower() for a whole string (ASCII, as for the keyword
scan). -/
def lowerStr (s : String) : String :=
  ⟨s.data.map lowerCh⟩

/-- `assign.split("%")[0]`: the characters before the first percent sign. -/
def headUntilPercent : List Char → List Char
  | [] => []
  | c :: rest => if c = '%' then [] else c :: headUntilPercent rest

/-- The Dependency fields read by changed: the callee name as written.  Its
`external_name` is the *calling* executable's module (the dependency's
parent chain ends at that module) dot the lower-cased callee name. -/
structure DepRec where
  name : String
deriving DecidableEq

/-- The Executable fields read by changed: its module's name, its own name,
its recorded assignment targets, and its dependency dictionary (callee key
to the list of recorded calls). -/
structure ExecRec where
  moduleName : String
  name : String
  assignments : List String
  dependencies : List (String × List DepRec)
deriving DecidableEq

/-- The project registry (`self.module.parent`): get_executable looks up a
fully-qualified lower-case name. -/
structure World where
  execs : List (String × ExecRec)
deriving DecidableEq

/-- `"{}.{}".format(self.module.name, self.name).lower()`. -/
def qualifiedName (e : ExecRec) : String :=
  lowerStr (e.moduleName ++ "." ++ e.name)

/-- `Dependency.external_name`: caller's module name lowered, dot, callee
name lowered. -/
def externalName (callerModule : String) (d : DepRec) : String :=
  lowerStr callerModule ++ "." ++ lowerStr d.name

/-- The truth value of `self._get_assignments_in(self._parameters, symbol)
== True` inside changed: with a non-empty symbol the loop returns True on
the first assignment whose pre-% head, lower-cased, equals the (unlowered)
symbol, and otherwise falls through returning None (≠ True); with an empty
symbol the other branch returns a list (≠ True). -/
def direct_changed (e : ExecRec) (symbol : String) : Bool :=
  if symbol ≠ "" then
    e.assignments.any (fun a =>
      lowerStr ⟨headUntilPercent a.data⟩ == symbol)
  else false

/-- Python `r != ""` on a changed result: None compares unequal to "". -/
def pyNeEmpty : Option String → Bool
  | none => true
  | some s => s != ""

/-- The flattened dependency iteration: for dependlist in dict, for
dependency in dict[dependlist]. -/
def allDeps (e : ExecRec) : List DepRec :=
  (e.dependencies.map Prod.snd).join

/-- The dependency loop of changed, parameterized by the recursive call:
resolve each dependency in the registry; a resolved callee whose recursive
result is ≠ "" (always, since changed never returns "") causes an immediate
return of the dependency's external name, otherwise the name is appended to
checked and the loop continues. -/
def loopDeps (rec : ExecRec → List String → Option (Option String × List String))
    (w : World) (callerModule : String) :
    List DepRec → List String → Option (Option String × List String)
  | [], checked => some (none, checked)
  | d :: rest, checked =>
    match List.lookup (externalName callerModule d) w.execs with
    | some iexec =>
      match rec iexec checked with
      | none => none
      | some (r, checked2) =>
        if pyNeEmpty r then some (some (externalName callerModule d), checked2)
        else loopDeps rec w callerModule rest (checked2 ++ [externalName callerModule d])
    | none => loopDeps rec w callerModule rest (checked ++ [externalName callerModule d])

/-- `Executable.changed(symbol, checked)`: an already-checked executable
returns None at once; a direct assignment match returns the executable's own
qualified name; otherwise the name is appended to checked and the dependency
loop runs, falling through to the implicit return None. -/
def changedF (w : World) (symbol : String) :
    Nat → ExecRec → List String → Option (Option String × List String)
  | 0, _, _ => none
  | fuel + 1, e, checked =>
    if qualifiedName e ∈ checked then some (none, checked)
    else if direct_changed e symbol then some (some (qualifiedName e), checked)
    else loopDeps (fun e2 c2 => changedF w symbol fuel e2 c2) w e.moduleName
      (allDeps e) (checked ++ [qualifiedName e])

/-- The qualified names of every registered executable. -/
def worldNames (w : World) : List String :=
  w.execs.map (fun p => qualifiedName p.2)

/-- The termination measure of changed: how many registered executables have
not yet been entered into checked. -/
def remaining (w : World) (checked : List String) : Nat :=
  (worldNames w).countP (fun n => decide (n ∉ checked))

/-- Executable a of module moda: no assignments, one call to b. -/
def c4execA : ExecRec := ⟨"moda", "a", [], [("b", [⟨"b"⟩])]⟩

/-- Executable b of module moda: no assignments, no calls. -/
def c4execB : ExecRec := ⟨"moda", "b", [], []⟩

/-- Executable c of module modc: assigns "x%y", no calls. -/
def c4execC : ExecRec := ⟨"modc", "c", ["x%y"], []⟩

/-- A registry in which nothing mutates "x" except c4execC. -/
def c4world : World :=
  ⟨[("moda.a", c4execA), ("moda.b", c4execB), ("modc.c", c4execC)]⟩

/-- Two executables of module m calling each other: a cyclic call graph. -/
def c8execA : ExecRec := ⟨"m", "a", [], [("b", [⟨"b"⟩])]⟩

def c8execB : ExecRec := ⟨"m", "b", [], [("a", [⟨"a"⟩])]⟩

def c8world : World := ⟨[("m.a", c8execA), ("m.b", c8execB)]⟩

/-! ## Module.update_embedded (elements.py 1033-1074)

Python elements are heap objects referenced from the module's `types` and
`executables` dictionaries.  The embedding keeps every element record in a
heap (a list indexed by object id); the module dictionaries and the nested
collections map keys to ids, so re-parenting relocates a reference exactly
as in Python.  An Executable owns nested `types` and `executables`
dictionaries, but a CustomType has no `types` attribute, so
`new_parent.types[key] = element` on a type container raises AttributeError
(modelled as Except.error). -/

/-- One element object: span, parent reference (none = the owning module),
and the nested collections filled by re-parenting. -/
structure ElemObj where
  start : Int
  stop : Int
  parentRef : Option Nat
  ntypes : List (String × Nat)
  nexecs : List (String × Nat)
deriving DecidableEq

/-- The module state seen by update_embedded: both top-level dictionaries
(key to object id) and the object heap. -/
structure EmbModule where
  typesD : List (String × Nat)
  execsD : List (String × Nat)
  heap : List ElemObj
deriving DecidableEq

deriving instance DecidableEq for Except

def heapGet (h : List ElemObj) (i : Nat) : Option ElemObj :=
  h.get? i

/-- `self.collection(attribute)` restricted to the two collections
update_embedded is used with; attr = true is "types". -/
def collOf (m : EmbModule) (attr : Bool) : List (String × Nat) :=
  if attr then m.typesD else m.execsD

def topEntries (m : EmbModule) : List (String × Nat) :=
  m.typesD ++ m.execsD

/-- One scan stage of find_embedded_parent: first entry whose object's span
strictly contains the element's span. -/
def findParentIn (h : List ElemObj) (e : ElemObj) :
    List (String × Nat) → Option (String × Nat)
  | [] => none
  | (k, cid) :: rest =>
    match heapGet h cid with
    | some c =>
      if e.start > c.start ∧ e.stop < c.stop then some (k, cid)
      else findParentIn h e rest
    | none => findParentIn h e rest

/-- `Module.find_embedded_parent(element)`: scan the types (for/else), then
the executables; the boolean records which collection the container came
from (true = a CustomType from self.types). -/
def find_embedded_parent (m : EmbModule) (e : ElemObj) :
    Option (Bool × String × Nat) :=
  match findParentIn m.heap e m.typesD with
  | some (k, cid) => some (true, k, cid)
  | none =>
    match findParentIn m.heap e m.execsD with
    | some (k, cid) => some (false, k, cid)
    | none => none

/-- Python dict assignment d[k] = v: overwrite in place, else append. -/
def dictInsert (d : List (String × Nat)) (k : String) (v : Nat) :
    List (String × Nat) :=
  if d.any (fun p => p.1 == k) then
    d.map (fun p => if p.1 == k then (k, v) else p)
  else d ++ [(k, v)]

/-- Python `del d[k]`. -/
def dictRemove (d : List (String × Nat)) (k : String) : List (String × Nat) :=
  d.filter (fun p => !(p.1 == k))

/-- `element.parent = new_parent`. -/
def setParent (h : List ElemObj) (eid pid : Nat) : List ElemObj :=
  match heapGet h eid with
  | some e => h.set eid { e with parentRef := some pid }
  | none => h

/-- `new_parent.types[key] = element` (intoTypes) or
`new_parent.executables[key] = element`. -/
def addNested (h : List ElemObj) (pid : Nat) (intoTypes : Bool) (k : String)
    (eid : Nat) : List ElemObj :=
  match heapGet h pid with
  | some p =>
    h.set pid (if intoTypes then { p with ntypes := dictInsert p.ntypes k eid }
               else { p with nexecs := dictInsert p.nexecs k eid })
  | none => h

/-- One iteration of the update_embedded loop for one snapshot key: look the
element up in the live collection, search for an embedded parent, and when
one is found set the parent reference, insert into the container's nested
collection — raising AttributeError when a types pass lands on a CustomType
container — and delete the key from the module collection. -/
def embedStep (attr : Bool) (m : EmbModule) (key : String) :
    Except Unit EmbModule :=
  match List.lookup key (collOf m attr) with
  | none => .ok m
  | some eid =>
    match heapGet m.heap eid with
    | none => .ok m
    | some e =>
      match find_embedded_parent m e with
      | none => .ok m
      | some (fromTypes, _, pid) =>
        if attr ∧ fromTypes then .error ()
        else
          let h2 := addNested (setParent m.heap eid pid) pid attr key eid
          if attr then
            .ok { m with typesD := dictRemove m.typesD key, heap := h2 }
          else
            .ok { m with execsD := dictRemove m.execsD key, heap := h2 }

/-- The loop over the snapshot `keys = list(coll.keys())`. -/
def runEmbed (attr : Bool) : List String → EmbModule → Except Unit EmbModule
  | [], s => .ok s
  | k :: rest, s =>
    match embedStep attr s k with
    | .error u => .error u
    | .ok s2 => runEmbed attr rest s2

/-- `Module.update_embedded(attribute)`. -/
def update_embedded (m : EmbModule) (attr : Bool) : Except Unit EmbModule :=
  runEmbed attr ((collOf m attr).map Prod.fst) m

/-- Two top-level types, the second strictly inside the first. -/
def c5crash : EmbModule :=
  ⟨[("outer", 0), ("inner", 1)], [],
   [⟨0, 10, none, [], []⟩, ⟨2, 5, none, [], []⟩]⟩

/-- Two top-level executables, isub (span 10..50) strictly inside osub
(span 0..100). -/
def c5w : EmbModule :=
  ⟨[], [("osub", 0), ("isub", 1)],
   [⟨0, 100, none, [], []⟩, ⟨10, 50, none, [], []⟩]⟩

/-- The state after update_embedded on the executables of c5w: isub is
re-parented into osub. -/
def c5wAfter : EmbModule :=
  ⟨[], [("osub", 0)],
   [⟨0, 100, none, [], [("isub", 1)]⟩, ⟨10, 50, some 0, [], []⟩]⟩

/-- Strict span containment, the test used by find_embedded_parent. -/
def strictlyInside (inner outer : ElemObj) : Prop :=
  inner.start > outer.start ∧ inner.stop < outer.stop

/-- The top entries of m whose object strictly contains e, with their
records (used to pick a maximal container). -/
def containerCands (m : EmbModule) (e : ElemObj) :
    List (String × Nat × ElemObj) :=
  (topEntries m).filterMap (fun p =>
    (heapGet m.heap p.2).bind (fun cc =>
      if e.start > cc.start ∧ e.stop < cc.stop then some (p.1, p.2, cc)
      else none))

/-- Two heaps have identical object spans everywhere (update_embedded never
changes a span). -/
def heapSpanEq (h1 h2 : List ElemObj) : Prop :=
  ∀ i, (heapGet h1 i).map (fun e => (e.start, e.stop)) =
       (heapGet h2 i).map (fun e => (e.start, e.stop))

def spanPres (m s : EmbModule) : Prop :=
  heapSpanEq s.heap m.heap

/-- The module dictionaries only lose entries during the pass. -/
def dictSub (m s : EmbModule) : Prop :=
  List.Sublist s.typesD m.typesD ∧ List.Sublist s.execsD m.execsD

/-- Entries whose object is strictly inside no top-level object of m keep
their dictionary membership. -/
def survivors (m s : EmbModule) : Prop :=
  ∀ k cid c, heapGet m.heap cid = some c →
    (∀ k2 did d, (k2, did) ∈ topEntries m → heapGet m.heap did = some d →
      ¬ strictlyInside c d) →
    ((k, cid) ∈ m.typesD → (k, cid) ∈ s.typesD) ∧
    ((k, cid) ∈ m.execsD → (k, cid) ∈ s.execsD)

/-- The state invariant before the tracked key has been processed. -/
def preInv (m : EmbModule) (attr : Bool) (key : String) (eid : Nat)
    (s : EmbModule) : Prop :=
  spanPres m s ∧ dictSub m s ∧ survivors m s ∧
  List.lookup key (collOf s attr) = some eid

/-- The state invariant after the tracked key has been re-parented into the
container with id cid. -/
def postInv (m : EmbModule) (attr : Bool) (key : String) (eid cid : Nat)
    (s : EmbModule) : Prop :=
  spanPres m s ∧ dictSub m s ∧
  List.lookup key (collOf s attr) = none ∧
  (∃ e2, heapGet s.heap eid = some e2 ∧ e2.parentRef = some cid) ∧
  (∃ c2, heapGet s.heap cid = some c2 ∧
    (key, eid) ∈ (if attr then c2.ntypes else c2.nexecs))

/-- Modelled from the spec: the "offset of that character within that line"
that C6 asserts for the second component of linenum — the absolute offset
minus the cumulative end of the previous line (0 for the first line). -/
def claimedWithin (chars : List Int) (i : Nat) (index : Int) : Int :=
  index - (if i = 0 then 0 else (chars.get? (i - 1)).getD 0)

/-- A two-line module ("ab", "cd") with no elements, for the C6 witnesses. -/
def c6mod : Module := ⟨"ab\ncd", [], [], [], none⟩

/-- A module whose boundary is line 1 ("contains") with two executables, the
first one starting after the edit target and the second one before it. -/
def c1mod : Module :=
  ⟨"module x\ncontains\nsub a\nsub b", [], [],
   [⟨28, 30, 0, 0, false⟩, ⟨10, 20, 0, 0, false⟩], none⟩

/-- The module state produced by update_elements on c1mod at line 3,
column 0, charcount 3, docdelta 0. -/
def c1mod2 : Module :=
  ⟨"module x\ncontains\nsub a\nsub b", [], [],
   [⟨31, 33, 3, 3, false⟩, ⟨10, 20, 0, 0, false⟩], some 1⟩

/-! # Theorems -/

/-! ## Helper lemmas -/

theorem ancestorNames_ne_nil (e : Anc) : ancestorNames e ≠ [] := by
  cases e with
  | mk n p => cases p <;> simp [ancestorNames]

theorem joinDot_cons (s : String) (l : List String) (h : l ≠ []) :
    joinDot (s :: l) = s ++ "." ++ joinDot l := by
  cases l with
  | nil => exact absurd rfl h
  | cons a t => rfl

theorem sameSlot_trans {a b c : DocElement} (hab : sameSlot a b = true)
    (hbc : sameSlot b c = true) : sameSlot a c = true := by
  simp only [sameSlot, Bool.and_eq_true, beq_iff_eq] at *
  exact ⟨hab.1.trans hbc.1, hab.2.trans hbc.2⟩

theorem sameSlot_symm {a b : DocElement} (h : sameSlot a b = true) :
    sameSlot b a = true := by
  simp only [sameSlot, Bool.and_eq_true, beq_iff_eq] at *
  exact ⟨h.1.symm, h.2.symm⟩

/-- Removing the first same-slot entry for `doc` empties the slot of `doc`
whenever the list held at most one entry in that slot. -/
theorem slotCount_removeFirstSlot_self (doc : DocElement) :
    ∀ l : List DocElement, slotCount l doc ≤ 1 →
      slotCount (removeFirstSlot l doc) doc = 0 := by
  intro l
  induction l with
  | nil => intro _; rfl
  | cons d rest ih =>
    intro h
    simp only [slotCount, List.countP_cons] at h
    by_cases hd : sameSlot d doc = true
    · simp only [removeFirstSlot, hd, if_true]
      simp only [hd, if_pos] at h
      simp only [slotCount]
      omega
    · have hd' : sameSlot d doc = false := by
        rw [← Bool.not_eq_true]; exact hd
      simp only [hd'] at h
      simp only [removeFirstSlot, hd']
      simp only [Bool.false_eq_true, if_false, slotCount, List.countP_cons, hd']
      have := ih (by simp only [slotCount]; omega)
      simp only [slotCount] at this
      omega

/-- Removing an entry never increases the occupancy of any slot. -/
theorem slotCount_removeFirstSlot_le (doc other : DocElement) :
    ∀ l : List DocElement,
      slotCount (removeFirstSlot l doc) other ≤ slotCount l other := by
  intro l
  induction l with
  | nil => exact Nat.le_refl _
  | cons d rest ih =>
    by_cases hd : sameSlot d doc = true
    · simp only [removeFirstSlot, hd, if_true, slotCount, List.countP_cons]
      omega
    · have hd' : sameSlot d doc = false := by
        rw [← Bool.not_eq_true]; exact hd
      simp only [removeFirstSlot, hd', Bool.false_eq_true, if_false, slotCount,
        List.countP_cons]
      have := ih
      simp only [slotCount] at this
      omega

/-- One `overwrite_docs` call preserves the at-most-one-per-slot invariant. -/
theorem overwrite_docs_preserves (l : List DocElement) (doc : DocElement)
    (h : ∀ d : DocElement, slotCount l d ≤ 1) :
    ∀ d : DocElement, slotCount (overwrite_docs l doc) d ≤ 1 := by
  intro d
  by_cases hdoc : sameSlot doc d = true
  · have hself : slotCount (removeFirstSlot l doc) doc = 0 :=
      slotCount_removeFirstSlot_self doc l (h doc)
    have h0 : slotCount (removeFirstSlot l doc) d = 0 := by
      unfold slotCount at hself ⊢
      rw [List.countP_eq_zero] at hself ⊢
      intro a ha hc
      exact hself a ha (sameSlot_trans hc (sameSlot_symm hdoc))
    simp only [overwrite_docs, slotCount, List.countP_append, List.countP_cons,
      List.countP_nil, Nat.zero_add, hdoc, if_true]
    simp only [slotCount] at h0
    omega
  · have hdoc' : sameSlot doc d = false := by
      rw [← Bool.not_eq_true]; exact hdoc
    have hle := slotCount_removeFirstSlot_le doc d l
    simp only [slotCount] at hle
    have hd := h d
    simp only [slotCount] at hd
    simp only [overwrite_docs, slotCount, List.countP_append, List.countP_cons,
      List.countP_nil, Nat.zero_add, hdoc', Bool.false_eq_true, if_false]
    omega

/-- The invariant propagates through any sequence of `overwrite_docs` calls. -/
theorem overwrite_docs_fold (seq : List DocElement) :
    ∀ l : List DocElement, (∀ d : DocElement, slotCount l d ≤ 1) →
      ∀ d : DocElement, slotCount (List.foldl overwrite_docs l seq) d ≤ 1 := by
  induction seq with
  | nil => intro l h d; exact h d
  | cons doc rest ih =>
    intro l h d
    exact ih (overwrite_docs l doc) (overwrite_docs_preserves l doc h) d

theorem splitNl_ne_nil (l : List Char) : splitNl l ≠ [] := by
  cases l with
  | nil => simp [splitNl]
  | cons c rest =>
    simp only [splitNl]
    cases splitNl rest with
    | nil => simp
    | cons line more =>
      by_cases hc : c = '\n' <;> simp [hc]

/-- The linenum loop returns the first index (counting from base) whose
cumulative count reaches the queried offset, paired with count - offset. -/
theorem findLine_first :
    ∀ (chars : List Int) (base i : Nat) (ci index : Int),
      chars.get? i = some ci → index ≤ ci →
      (∀ j cj, j < i → chars.get? j = some cj → cj < index) →
      findLine chars index base = some (base + i, ci - index) := by
  intro chars
  induction chars with
  | nil => intro base i ci index hget _ _; simp at hget
  | cons c rest ih =>
    intro base i ci index hget hle hfirst
    cases i with
    | zero =>
      rw [List.get?_cons_zero] at hget
      injection hget with h
      subst h
      simp [findLine, hle]
    | succ j =>
      have hc : c < index := hfirst 0 c (Nat.succ_pos j) rfl
      have hnle : ¬ index ≤ c := by omega
      have hrec := ih (base + 1) j ci index (by simpa using hget) hle
        (fun k ck hk hgk => hfirst (k + 1) ck (by omega) (by simpa using hgk))
      simp only [findLine, if_neg hnle]
      rw [hrec]
      have : base + 1 + j = base + (j + 1) := by omega
      rw [this]

/-- With docdelta = 0, the update check is exactly the effective-start
test. -/
theorem update_char_check_zero (e : RtElement) (target : Int) :
    update_char_check e target 0 = decide (absstart e > target) := by
  simp [update_char_check]

/-- Effect of one pass of the types/executables shift map on one element. -/
theorem shift_case_rt (t t2 : RtElement) (T charcount : Int)
    (h : (if update_char_check t T 0 = true then element_charfix t charcount
          else t) = t2) :
    (absstart t > T → t2.start = t.start + charcount ∧ t2.stop = t.stop + charcount) ∧
    (absstart t ≤ T → t2 = t) := by
  rw [update_char_check_zero] at h
  by_cases habs : absstart t > T
  · rw [if_pos (by simpa using habs)] at h
    subst h
    exact ⟨fun _ => ⟨rfl, rfl⟩, fun hle => absurd habs (by omega)⟩
  · rw [if_neg (by simpa using habs)] at h
    subst h
    exact ⟨fun hgt => absurd hgt habs, fun _ => rfl⟩

/-- Effect of one pass of the members shift map on one element. -/
theorem shift_case_member (mem mem2 : Member) (T charcount : Int)
    (h : (if mem.start > T then
        ({ mem with start := mem.start + charcount,
                    stop := mem.stop + charcount } : Member)
      else mem) = mem2) :
    (mem.start > T → mem2.start = mem.start + charcount ∧
      mem2.stop = mem.stop + charcount) ∧
    (mem.start ≤ T → mem2 = mem) := by
  by_cases hst : mem.start > T
  · rw [if_pos hst] at h
    subst h
    exact ⟨fun _ => ⟨rfl, rfl⟩, fun hle => absurd hst (by omega)⟩
  · rw [if_neg hst] at h
    subst h
    exact ⟨fun hgt => absurd hgt hst, fun _ => rfl⟩

theorem lookup_mem {β : Type} {l : List (String × β)} :
    ∀ {k : String} {v : β}, List.lookup k l = some v → (k, v) ∈ l := by
  induction l with
  | nil => intro k v h; simp [List.lookup] at h
  | cons p rest ih =>
    intro k v h
    rw [List.lookup] at h
    by_cases hk : k == p.1
    · rw [hk] at h
      simp only at h
      injection h with h
      subst h
      have : k = p.1 := by simpa using hk
      subst this
      exact List.mem_cons_self _ _
    · rw [Bool.not_eq_true] at hk
      rw [hk] at h
      simp only at h
      exact List.mem_cons_of_mem _ (ih h)

/-- Pointwise monotone countP bound for the not-yet-checked counter. -/
theorem countP_notmem_le (l : List String) (c1 c2 : List String)
    (hsub : c1 ⊆ c2) :
    l.countP (fun n => decide (n ∉ c2)) ≤ l.countP (fun n => decide (n ∉ c1)) := by
  induction l with
  | nil => exact Nat.le_refl _
  | cons a rest ih =>
    rw [List.countP_cons, List.countP_cons]
    have hpt : (if (decide (a ∉ c2) : Bool) = true then 1 else 0) ≤
        (if (decide (a ∉ c1) : Bool) = true then 1 else 0) := by
      by_cases ha : a ∈ c1
      · have h2 : a ∈ c2 := hsub ha
        simp [ha, h2]
      · by_cases h2 : a ∈ c2 <;> simp [ha, h2]
    omega

/-- Growing the checked list never increases the number of unchecked
registered executables. -/
theorem remaining_mono (w : World) {c1 c2 : List String} (h : c1 ⊆ c2) :
    remaining w c2 ≤ remaining w c1 :=
  countP_notmem_le (worldNames w) c1 c2 h

/-- Appending a present, not-yet-checked element strictly shrinks the
unchecked count of a list. -/
theorem countP_append_single_lt (checked : List String) (n0 : String)
    (hnot : n0 ∉ checked) :
    ∀ l : List String, n0 ∈ l →
      l.countP (fun n => decide (n ∉ checked ++ [n0])) <
      l.countP (fun n => decide (n ∉ checked)) := by
  intro l
  induction l with
  | nil => intro hmem; cases hmem
  | cons a rest ih =>
    intro hmem
    rw [List.countP_cons, List.countP_cons]
    rcases List.mem_cons.mp hmem with rfl | h0
    · have h1 : (decide (n0 ∉ checked ++ [n0]) : Bool) = false := by simp
      have h2 : (decide (n0 ∉ checked) : Bool) = true := by simpa using hnot
      rw [h1, h2]
      have := countP_notmem_le rest checked (checked ++ [n0])
        (List.subset_append_left _ _)
      simp only [if_true, Bool.false_eq_true, if_false]
      omega
    · have hpt : (if (decide (a ∉ checked ++ [n0]) : Bool) = true then 1 else 0) ≤
          (if (decide (a ∉ checked) : Bool) = true then 1 else 0) := by
        by_cases ha : a ∈ checked
        · simp [ha]
        · by_cases ha2 : a ∈ checked ++ [n0] <;> simp [ha, ha2]
      have := ih h0
      omega

/-- Appending a registered, not-yet-checked name strictly shrinks the
unchecked count. -/
theorem remaining_strict (w : World) (checked : List String) (n0 : String)
    (hmem : n0 ∈ worldNames w) (hnot : n0 ∉ checked) :
    remaining w (checked ++ [n0]) < remaining w checked :=
  countP_append_single_lt checked n0 hnot (worldNames w) hmem

/-- The dependency loop only ever appends to the checked list. -/
theorem loopDeps_checked_mono
    (rec : ExecRec → List String → Option (Option String × List String))
    (hrecmono : ∀ e2 c2 r c3, rec e2 c2 = some (r, c3) → c2 ⊆ c3)
    (w : World) (cm : String) :
    ∀ (deps : List DepRec) (checked : List String) (r : Option String)
      (cf : List String),
      loopDeps rec w cm deps checked = some (r, cf) → checked ⊆ cf := by
  intro deps
  induction deps with
  | nil =>
    intro checked r cf h
    simp only [loopDeps] at h
    injection h with h
    injection h with _ h2
    subst h2
    exact List.Subset.refl _
  | cons d rest ih =>
    intro checked r cf h
    simp only [loopDeps] at h
    cases hlk : List.lookup (externalName cm d) w.execs with
    | some iexec =>
      rw [hlk] at h
      simp only at h
      cases hrec : rec iexec checked with
      | none => rw [hrec] at h; simp at h
      | some rc =>
        obtain ⟨r0, c2⟩ := rc
        rw [hrec] at h
        simp only at h
        have hsub : checked ⊆ c2 := hrecmono _ _ _ _ hrec
        by_cases hne : pyNeEmpty r0 = true
        · rw [if_pos hne] at h
          injection h with h
          injection h with _ h2
          subst h2
          exact hsub
        · rw [if_neg hne] at h
          exact hsub.trans ((List.subset_append_left _ _).trans (ih _ _ _ h))
    | none =>
      rw [hlk] at h
      simp only at h
      exact (List.subset_append_left _ _).trans (ih _ _ _ h)

/-- changed only ever appends to the checked list. -/
theorem changedF_checked_mono (w : World) (symbol : String) :
    ∀ (fuel : Nat) (e : ExecRec) (checked : List String) (r : Option String)
      (cf : List String),
      changedF w symbol fuel e checked = some (r, cf) → checked ⊆ cf := by
  intro fuel
  induction fuel with
  | zero => intro e checked r cf h; simp [changedF] at h
  | succ n ih =>
    intro e checked r cf h
    simp only [changedF] at h
    by_cases h1 : qualifiedName e ∈ checked
    · rw [if_pos h1] at h
      injection h with h
      injection h with _ h2
      subst h2
      exact List.Subset.refl _
    · rw [if_neg h1] at h
      by_cases h2 : direct_changed e symbol = true
      · rw [if_pos h2] at h
        injection h with h
        injection h with _ h3
        subst h3
        exact List.Subset.refl _
      · rw [if_neg h2] at h
        exact (List.subset_append_left _ _).trans
          (loopDeps_checked_mono _ (fun e2 c2 r2 c3 hx => ih e2 c2 r2 c3 hx)
            w e.moduleName (allDeps e) _ r cf h)

/-- A looked-up executable is registered, so its qualified name is among the
world's names. -/
theorem lookup_qualified_mem (w : World) (k : String) (v : ExecRec)
    (h : List.lookup k w.execs = some v) :
    qualifiedName v ∈ worldNames w := by
  unfold worldNames
  exact List.mem_map.mpr ⟨(k, v), lookup_mem h, rfl⟩

/-- The dependency loop completes whenever every recursive call made with a
larger checked list completes. -/
theorem loopDeps_isSome (w : World) (cm : String) (n : Nat)
    (rec : ExecRec → List String → Option (Option String × List String))
    (hrec : ∀ e2 c2, qualifiedName e2 ∈ worldNames w → remaining w c2 < n →
      (rec e2 c2).isSome)
    (hrecmono : ∀ e2 c2 r c3, rec e2 c2 = some (r, c3) → c2 ⊆ c3) :
    ∀ (deps : List DepRec) (checked : List String), remaining w checked < n →
      (loopDeps rec w cm deps checked).isSome := by
  intro deps
  induction deps with
  | nil => intro checked _; simp [loopDeps]
  | cons d rest ih =>
    intro checked hrem
    simp only [loopDeps]
    cases hlk : List.lookup (externalName cm d) w.execs with
    | some iexec =>
      have hqn : qualifiedName iexec ∈ worldNames w :=
        lookup_qualified_mem w _ iexec hlk
      have hsome := hrec iexec checked hqn hrem
      cases hcall : rec iexec checked with
      | none => rw [hcall] at hsome; simp at hsome
      | some rc =>
        obtain ⟨r0, c2⟩ := rc
        by_cases hne : pyNeEmpty r0 = true
        · simp [hcall, hne]
        · have hsub : checked ⊆ c2 := hrecmono _ _ _ _ hcall
          have hrem2 : remaining w (c2 ++ [externalName cm d]) < n :=
            lt_of_le_of_lt
              (remaining_mono w (hsub.trans (List.subset_append_left _ _))) hrem
          have := ih _ hrem2
          simp only [hcall, hne, Bool.false_eq_true, if_false]
          exact this
    | none =>
      have hrem2 : remaining w (checked ++ [externalName cm d]) < n :=
        lt_of_le_of_lt (remaining_mono w (List.subset_append_left _ _)) hrem
      exact ih _ hrem2

/-! ### update_embedded helper lemmas -/

theorem dictRemove_lookup_self (d : List (String × Nat)) (k : String) :
    List.lookup k (dictRemove d k) = none := by
  induction d with
  | nil => rfl
  | cons p rest ih =>
    obtain ⟨p1, p2⟩ := p
    by_cases hk : p1 = k
    · subst hk
      simpa [dictRemove, List.filter_cons] using ih
    · have hk1 : (p1 == k) = false := by simpa using hk
      have hk2 : (k == p1) = false := by
        simp only [beq_eq_false_iff_ne]
        exact fun hc => hk hc.symm
      simp only [dictRemove, List.filter_cons, hk1, Bool.not_false, if_true,
        List.lookup, hk2]
      simpa [dictRemove] using ih

theorem dictRemove_lookup_ne (d : List (String × Nat)) (k k' : String)
    (h : k ≠ k') : List.lookup k (dictRemove d k') = List.lookup k d := by
  induction d with
  | nil => rfl
  | cons p rest ih =>
    obtain ⟨p1, p2⟩ := p
    by_cases hk : p1 = k'
    · subst hk
      have hk2 : (k == p1) = false := by
        simp only [beq_eq_false_iff_ne]
        exact h
      simp only [dictRemove, List.filter_cons, beq_self_eq_true, Bool.not_true,
        Bool.false_eq_true, if_false, List.lookup, hk2]
      simpa [dictRemove] using ih
    · have hk1 : (p1 == k') = false := by simpa using hk
      simp only [dictRemove, List.filter_cons, hk1, Bool.not_false, if_true]
      by_cases hkp : k = p1
      · subst hkp
        simp [List.lookup]
      · have hk2 : (k == p1) = false := by simpa using hkp
        simp only [List.lookup, hk2]
        simpa [dictRemove] using ih

theorem mem_dictRemove_of_ne {d : List (String × Nat)} {k0 : String} {v0 : Nat}
    (hmem : (k0, v0) ∈ d) (k : String) (hne : k0 ≠ k) :
    (k0, v0) ∈ dictRemove d k := by
  apply List.mem_filter.mpr
  exact ⟨hmem, by simpa using hne⟩

theorem dictRemove_sublist (d : List (String × Nat)) (k : String) :
    List.Sublist (dictRemove d k) d :=
  List.filter_sublist d

theorem dictInsert_mem_self (d : List (String × Nat)) (k : String) (v : Nat) :
    (k, v) ∈ dictInsert d k v := by
  unfold dictInsert
  by_cases h : d.any (fun p => p.1 == k)
  · rw [if_pos h]
    rcases List.any_eq_true.mp h with ⟨p, hp, hpk⟩
    exact List.mem_map.mpr ⟨p, hp, by simp [hpk]⟩
  · rw [if_neg h]
    exact List.mem_append_right _ (by simp)

theorem dictInsert_mem_preserved {d : List (String × Nat)} {k0 : String}
    {v0 : Nat} (hmem : (k0, v0) ∈ d) (k : String) (v : Nat) (hne : k0 ≠ k) :
    (k0, v0) ∈ dictInsert d k v := by
  unfold dictInsert
  by_cases h : d.any (fun p => p.1 == k)
  · rw [if_pos h]
    refine List.mem_map.mpr ⟨(k0, v0), hmem, ?_⟩
    have : ((k0, v0).1 == k) = false := by simpa using hne
    simp [this]
  · rw [if_neg h]
    exact List.mem_append_left _ hmem

theorem heapGet_lt_length {h : List ElemObj} {i : Nat} {e : ElemObj}
    (hg : heapGet h i = some e) : i < h.length := by
  by_contra hc
  push_neg at hc
  unfold heapGet at hg
  rw [List.get?_eq_none.mpr hc] at hg
  cases hg

theorem heapGet_set_self {h : List ElemObj} {i : Nat} (a : ElemObj)
    (hlt : i < h.length) : heapGet (h.set i a) i = some a :=
  List.get?_set_eq_of_lt a hlt

theorem heapGet_set_ne {h : List ElemObj} {i j : Nat} (a : ElemObj)
    (hne : i ≠ j) : heapGet (h.set i a) j = heapGet h j :=
  List.get?_set_ne a h hne

theorem heapSpanEq_refl (h : List ElemObj) : heapSpanEq h h :=
  fun _ => rfl

theorem heapSpanEq_trans {h1 h2 h3 : List ElemObj} (a : heapSpanEq h1 h2)
    (b : heapSpanEq h2 h3) : heapSpanEq h1 h3 :=
  fun i => (a i).trans (b i)

theorem heapSpanEq_set {h : List ElemObj} {i : Nat} {eOld : ElemObj}
    (eNew : ElemObj) (hget : heapGet h i = some eOld)
    (h1 : eNew.start = eOld.start) (h2 : eNew.stop = eOld.stop) :
    heapSpanEq (h.set i eNew) h := by
  intro j
  by_cases hij : i = j
  · subst hij
    rw [heapGet_set_self eNew (heapGet_lt_length hget), hget]
    simp [h1, h2]
  · rw [heapGet_set_ne eNew hij]

theorem heapSpanEq_setParent (h : List ElemObj) (eid pid : Nat) :
    heapSpanEq (setParent h eid pid) h := by
  unfold setParent
  cases hget : heapGet h eid with
  | none => exact heapSpanEq_refl h
  | some e => exact heapSpanEq_set _ hget rfl rfl

theorem heapSpanEq_addNested (h : List ElemObj) (pid : Nat) (b : Bool)
    (k : String) (eid : Nat) : heapSpanEq (addNested h pid b k eid) h := by
  unfold addNested
  cases hget : heapGet h pid with
  | none => exact heapSpanEq_refl h
  | some p =>
    exact heapSpanEq_set _ hget (by cases b <;> rfl) (by cases b <;> rfl)

/-- Read a record through a span-preserving heap change. -/
theorem spanPres_get {m s : EmbModule} (hsp : spanPres m s) {i : Nat}
    {e2 : ElemObj} (hg : heapGet s.heap i = some e2) :
    ∃ e1, heapGet m.heap i = some e1 ∧ e1.start = e2.start ∧ e1.stop = e2.stop := by
  have := hsp i
  rw [hg] at this
  cases hm : heapGet m.heap i with
  | none => rw [hm] at this; simp at this
  | some e1 =>
    rw [hm] at this
    simp only [Option.map_some'] at this
    injection this with this
    exact ⟨e1, rfl, congrArg Prod.fst this.symm, congrArg Prod.snd this.symm⟩

/-- Read a record of the original heap in the current one. -/
theorem spanPres_get_rev {m s : EmbModule} (hsp : spanPres m s) {i : Nat}
    {e1 : ElemObj} (hg : heapGet m.heap i = some e1) :
    ∃ e2, heapGet s.heap i = some e2 ∧ e2.start = e1.start ∧ e2.stop = e1.stop := by
  have := hsp i
  rw [hg] at this
  cases hs : heapGet s.heap i with
  | none => rw [hs] at this; simp at this
  | some e2 =>
    rw [hs] at this
    simp only [Option.map_some'] at this
    injection this with this
    exact ⟨e2, rfl, congrArg Prod.fst this, congrArg Prod.snd this⟩

theorem findParentIn_cons_eq (h : List ElemObj) (e : ElemObj) (pk : String)
    (pid : Nat) (rest : List (String × Nat)) :
    findParentIn h e ((pk, pid) :: rest) =
      match heapGet h pid with
      | some c =>
        if e.start > c.start ∧ e.stop < c.stop then some (pk, pid)
        else findParentIn h e rest
      | none => findParentIn h e rest :=
  rfl

theorem findParentIn_cons_some {h : List ElemObj} {e : ElemObj} {pk : String}
    {pid : Nat} {rest : List (String × Nat)} {c : ElemObj}
    (hg : heapGet h pid = some c) :
    findParentIn h e ((pk, pid) :: rest) =
      if e.start > c.start ∧ e.stop < c.stop then some (pk, pid)
      else findParentIn h e rest := by
  rw [findParentIn_cons_eq, hg]

theorem findParentIn_cons_none {h : List ElemObj} {e : ElemObj} {pk : String}
    {pid : Nat} {rest : List (String × Nat)} (hg : heapGet h pid = none) :
    findParentIn h e ((pk, pid) :: rest) = findParentIn h e rest := by
  rw [findParentIn_cons_eq, hg]

theorem findParentIn_sound (h : List ElemObj) (e : ElemObj) :
    ∀ (d : List (String × Nat)) (k : String) (cid : Nat),
      findParentIn h e d = some (k, cid) →
      (k, cid) ∈ d ∧ ∃ c, heapGet h cid = some c ∧
        e.start > c.start ∧ e.stop < c.stop := by
  intro d
  induction d with
  | nil => intro k cid hf; simp [findParentIn] at hf
  | cons p rest ih =>
    intro k cid hf
    obtain ⟨pk, pid⟩ := p
    cases hg : heapGet h pid with
    | some c =>
      rw [findParentIn_cons_some hg] at hf
      by_cases hc : e.start > c.start ∧ e.stop < c.stop
      · rw [if_pos hc] at hf
        injection hf with hf
        injection hf with hf1 hf2
        subst hf1
        subst hf2
        exact ⟨List.mem_cons_self _ _, c, hg, hc⟩
      · rw [if_neg hc] at hf
        obtain ⟨hm, hrest⟩ := ih k cid hf
        exact ⟨List.mem_cons_of_mem _ hm, hrest⟩
    | none =>
      rw [findParentIn_cons_none hg] at hf
      obtain ⟨hm, hrest⟩ := ih k cid hf
      exact ⟨List.mem_cons_of_mem _ hm, hrest⟩

theorem findParentIn_isSome (h : List ElemObj) (e : ElemObj) :
    ∀ (d : List (String × Nat)) (k : String) (cid : Nat) (c : ElemObj),
      (k, cid) ∈ d → heapGet h cid = some c → e.start > c.start →
      e.stop < c.stop → (findParentIn h e d).isSome := by
  intro d
  induction d with
  | nil => intro k cid c hmem; cases hmem
  | cons p rest ih =>
    intro k cid c hmem hg h1 h2
    obtain ⟨pk, pid⟩ := p
    cases hgp : heapGet h pid with
    | some cp =>
      rw [findParentIn_cons_some hgp]
      by_cases hc : e.start > cp.start ∧ e.stop < cp.stop
      · simp [hc]
      · rw [if_neg hc]
        rcases List.mem_cons.mp hmem with heq | hmem2
        · injection heq with e1 e2
          subst e2
          rw [hgp] at hg
          injection hg with hg
          subst hg
          exact absurd ⟨h1, h2⟩ hc
        · exact ih k cid c hmem2 hg h1 h2
    | none =>
      rw [findParentIn_cons_none hgp]
      rcases List.mem_cons.mp hmem with heq | hmem2
      · injection heq with e1 e2
        subst e2
        rw [hgp] at hg
        cases hg
      · exact ih k cid c hmem2 hg h1 h2

theorem find_embedded_parent_sound (s : EmbModule) (e : ElemObj) (b : Bool)
    (k : String) (cid : Nat)
    (hf : find_embedded_parent s e = some (b, k, cid)) :
    (k, cid) ∈ topEntries s ∧
    ∃ c, heapGet s.heap cid = some c ∧ e.start > c.start ∧ e.stop < c.stop := by
  unfold find_embedded_parent at hf
  cases h1 : findParentIn s.heap e s.typesD with
  | some p =>
    obtain ⟨k1, cid1⟩ := p
    rw [h1] at hf
    have hf2 := hf.symm
    injection hf2 with hf2
    injection hf2 with hb hf2
    injection hf2 with hk hc
    subst hb
    subst hk
    subst hc
    obtain ⟨hm, hrest⟩ := findParentIn_sound s.heap e s.typesD k cid h1
    exact ⟨List.mem_append_left _ hm, hrest⟩
  | none =>
    rw [h1] at hf
    cases h2 : findParentIn s.heap e s.execsD with
    | some p =>
      obtain ⟨k1, cid1⟩ := p
      rw [h2] at hf
      have hf2 := hf.symm
      injection hf2 with hf2
      injection hf2 with hb hf2
      injection hf2 with hk hc
      subst hb
      subst hk
      subst hc
      obtain ⟨hm, hrest⟩ := findParentIn_sound s.heap e s.execsD k cid h2
      exact ⟨List.mem_append_right _ hm, hrest⟩
    | none =>
      rw [h2] at hf
      cases hf

theorem find_embedded_parent_isSome (s : EmbModule) (e : ElemObj)
    (hex : ∃ k cid c, (k, cid) ∈ topEntries s ∧ heapGet s.heap cid = some c ∧
      e.start > c.start ∧ e.stop < c.stop) :
    (find_embedded_parent s e).isSome := by
  obtain ⟨k, cid, c, hmem, hg, h1, h2⟩ := hex
  unfold find_embedded_parent
  cases hf : findParentIn s.heap e s.typesD with
  | some p => obtain ⟨a, b⟩ := p; simp
  | none =>
    rcases List.mem_append.mp hmem with ht | he
    · have := findParentIn_isSome s.heap e s.typesD k cid c ht hg h1 h2
      rw [hf] at this
      cases this
    · have := findParentIn_isSome s.heap e s.execsD k cid c he hg h1 h2
      cases hf2 : findParentIn s.heap e s.execsD with
      | some p => obtain ⟨a, b⟩ := p; simp
      | none => rw [hf2] at this; cases this

theorem list_exists_max {α : Type} (g : α → Int) :
    ∀ (l : List α), l ≠ [] → ∃ x ∈ l, ∀ y ∈ l, g y ≤ g x := by
  intro l
  induction l with
  | nil => intro h; exact absurd rfl h
  | cons a rest ih =>
    intro _
    cases rest with
    | nil =>
      refine ⟨a, List.mem_singleton_self a, fun y hy => ?_⟩
      rw [List.mem_singleton.mp hy]
    | cons b t =>
      obtain ⟨x, hx, hmax⟩ := ih (by simp)
      by_cases hax : g x ≤ g a
      · refine ⟨a, List.mem_cons_self _ _, fun y hy => ?_⟩
        rcases List.mem_cons.mp hy with rfl | hy2
        · exact le_refl _
        · exact (hmax y hy2).trans hax
      · push_neg at hax
        refine ⟨x, List.mem_cons_of_mem _ hx, fun y hy => ?_⟩
        rcases List.mem_cons.mp hy with rfl | hy2
        · exact le_of_lt hax
        · exact hmax y hy2

theorem mem_containerCands {m : EmbModule} {e : ElemObj} {k : String}
    {cid : Nat} {c : ElemObj} :
    (k, cid, c) ∈ containerCands m e ↔
    ((k, cid) ∈ topEntries m ∧ heapGet m.heap cid = some c ∧
      e.start > c.start ∧ e.stop < c.stop) := by
  unfold containerCands
  rw [List.mem_filterMap]
  constructor
  · rintro ⟨⟨pk, pid⟩, hp, heq⟩
    rw [Option.bind_eq_some] at heq
    obtain ⟨cc, hcc, hif⟩ := heq
    by_cases hcond : e.start > cc.start ∧ e.stop < cc.stop
    · rw [if_pos hcond] at hif
      injection hif with hif
      injection hif with h1 hif
      injection hif with h2 h3
      subst h1
      subst h2
      subst h3
      exact ⟨hp, hcc, hcond⟩
    · rw [if_neg hcond] at hif
      cases hif
  · rintro ⟨hp, hcc, h1, h2⟩
    refine ⟨(k, cid), hp, ?_⟩
    rw [hcc, Option.some_bind, if_pos ⟨h1, h2⟩]

/-- Any element strictly inside some top entry of m is strictly inside a
top entry whose object is itself strictly inside no top object (the scan
can always fall back to a maximal container). -/
theorem exists_maximal_container (m : EmbModule) (e : ElemObj)
    (hex : ∃ k cid c, (k, cid) ∈ topEntries m ∧ heapGet m.heap cid = some c ∧
      strictlyInside e c) :
    ∃ k cid c, (k, cid) ∈ topEntries m ∧ heapGet m.heap cid = some c ∧
      strictlyInside e c ∧
      ∀ k2 did d, (k2, did) ∈ topEntries m → heapGet m.heap did = some d →
        ¬ strictlyInside c d := by
  obtain ⟨k, cid, c, hmem, hg, hin⟩ := hex
  have hmemc : (k, cid, c) ∈ containerCands m e :=
    mem_containerCands.mpr ⟨hmem, hg, hin.1, hin.2⟩
  have hne : containerCands m e ≠ [] := by
    intro hnil
    rw [hnil] at hmemc
    cases hmemc
  obtain ⟨x, hx, hmax⟩ :=
    list_exists_max (fun y => y.2.2.stop - y.2.2.start) (containerCands m e) hne
  obtain ⟨xk, xid, xc⟩ := x
  obtain ⟨hxm, hxg, hx1, hx2⟩ := mem_containerCands.mp hx
  refine ⟨xk, xid, xc, hxm, hxg, ⟨hx1, hx2⟩, ?_⟩
  intro k2 did d hmem2 hgd hinside
  have hed : strictlyInside e d := by
    obtain ⟨b1, b2⟩ := hinside
    exact ⟨lt_trans b1 hx1, lt_trans hx2 b2⟩
  have hmemd : (k2, did, d) ∈ containerCands m e :=
    mem_containerCands.mpr ⟨hmem2, hgd, hed.1, hed.2⟩
  have := hmax (k2, did, d) hmemd
  simp only at this
  obtain ⟨b1, b2⟩ := hinside
  omega

theorem heapGet_set_map {γ : Type} (f : ElemObj → γ) {h : List ElemObj}
    {i : Nat} {eOld : ElemObj} (eNew : ElemObj) (hget : heapGet h i = some eOld)
    (hf : f eNew = f eOld) (j : Nat) :
    (heapGet (h.set i eNew) j).map f = (heapGet h j).map f := by
  by_cases hij : i = j
  · subst hij
    rw [heapGet_set_self eNew (heapGet_lt_length hget), hget]
    simp [hf]
  · rw [heapGet_set_ne eNew hij]

theorem heapGet_setParent_ne {h : List ElemObj} {eid pid i : Nat}
    (hne : i ≠ eid) : heapGet (setParent h eid pid) i = heapGet h i := by
  unfold setParent
  cases hg : heapGet h eid with
  | none => rfl
  | some e => exact heapGet_set_ne _ (fun hc => hne hc.symm)

theorem heapGet_setParent_self {h : List ElemObj} {eid : Nat} {e : ElemObj}
    (pid : Nat) (hg : heapGet h eid = some e) :
    heapGet (setParent h eid pid) eid =
      some { e with parentRef := some pid } := by
  unfold setParent
  rw [hg]
  exact heapGet_set_self _ (heapGet_lt_length hg)

theorem heapGet_addNested_ne {h : List ElemObj} {pid i : Nat} {b : Bool}
    {k : String} {eid0 : Nat} (hne : i ≠ pid) :
    heapGet (addNested h pid b k eid0) i = heapGet h i := by
  unfold addNested
  cases hg : heapGet h pid with
  | none => rfl
  | some p => exact heapGet_set_ne _ (fun hc => hne hc.symm)

theorem heapGet_addNested_self {h : List ElemObj} {pid : Nat} {p : ElemObj}
    (b : Bool) (k : String) (eid0 : Nat) (hg : heapGet h pid = some p) :
    heapGet (addNested h pid b k eid0) pid =
      some (if b then { p with ntypes := dictInsert p.ntypes k eid0 }
            else { p with nexecs := dictInsert p.nexecs k eid0 }) := by
  unfold addNested
  rw [hg]
  exact heapGet_set_self _ (heapGet_lt_length hg)

/-- setParent changes no nested collection. -/
theorem setParent_map_nested (h : List ElemObj) (eid pid : Nat) (j : Nat) :
    (heapGet (setParent h eid pid) j).map (fun e => (e.ntypes, e.nexecs)) =
    (heapGet h j).map (fun e => (e.ntypes, e.nexecs)) := by
  unfold setParent
  cases hg : heapGet h eid with
  | none => rfl
  | some e =>
    exact heapGet_set_map (fun e => (e.ntypes, e.nexecs))
      { e with parentRef := some pid } hg rfl j

/-- addNested changes no parent reference. -/
theorem addNested_map_parentRef (h : List ElemObj) (pid : Nat) (b : Bool)
    (k : String) (eid0 : Nat) (j : Nat) :
    (heapGet (addNested h pid b k eid0) j).map ElemObj.parentRef =
    (heapGet h j).map ElemObj.parentRef := by
  unfold addNested
  cases hg : heapGet h pid with
  | none => rfl
  | some p =>
    exact heapGet_set_map ElemObj.parentRef
      (if b then { p with ntypes := dictInsert p.ntypes k eid0 }
       else { p with nexecs := dictInsert p.nexecs k eid0 }) hg
      (by cases b <;> rfl) j

theorem lookup_eq_of_mem_nodup :
    ∀ {d : List (String × Nat)} {k : String} {v : Nat},
      (d.map Prod.fst).Nodup → (k, v) ∈ d → List.lookup k d = some v := by
  intro d
  induction d with
  | nil => intro k v _ hmem; cases hmem
  | cons p rest ih =>
    intro k v hnd hmem
    obtain ⟨p1, p2⟩ := p
    rw [List.map_cons, List.nodup_cons] at hnd
    rcases List.mem_cons.mp hmem with heq | hmem2
    · injection heq with h1 h2
      subst h1
      subst h2
      simp [List.lookup]
    · have hne : k ≠ p1 := by
        intro hc
        subst hc
        exact hnd.1 (List.mem_map.mpr ⟨(k, v), hmem2, rfl⟩)
      have : (k == p1) = false := by simpa using hne
      simp only [List.lookup, this]
      exact ih hnd.2 hmem2

/-- With distinct ids in a dictionary, entries with the same id have the
same key. -/
theorem key_eq_of_id_nodup :
    ∀ {d : List (String × Nat)} {k1 k2 : String} {v : Nat},
      (d.map Prod.snd).Nodup → (k1, v) ∈ d → (k2, v) ∈ d → k1 = k2 := by
  intro d
  induction d with
  | nil => intro k1 k2 v _ h; cases h
  | cons p rest ih =>
    intro k1 k2 v hnd h1 h2
    obtain ⟨p1, p2⟩ := p
    rw [List.map_cons, List.nodup_cons] at hnd
    rcases List.mem_cons.mp h1 with he1 | hm1 <;>
      rcases List.mem_cons.mp h2 with he2 | hm2
    · injection he1 with a1 a2
      injection he2 with b1 b2
      exact a1.trans b1.symm
    · injection he1 with a1 a2
      subst a2
      exact absurd (List.mem_map.mpr ⟨(k2, v), hm2, rfl⟩) hnd.1
    · injection he2 with b1 b2
      subst b2
      exact absurd (List.mem_map.mpr ⟨(k1, v), hm1, rfl⟩) hnd.1
    · exact ih hnd.2 hm1 hm2

/-- Inversion of one update_embedded iteration: either nothing happened, or
the element was re-parented (and the state fields are as computed). -/
theorem embedStep_cases (attr : Bool) (s s2 : EmbModule) (k' : String)
    (h : embedStep attr s k' = .ok s2) :
    s2 = s ∨
    ∃ eid' e' fromT k0 pid,
      List.lookup k' (collOf s attr) = some eid' ∧
      heapGet s.heap eid' = some e' ∧
      find_embedded_parent s e' = some (fromT, k0, pid) ∧
      ¬(attr = true ∧ fromT = true) ∧
      s2.heap = addNested (setParent s.heap eid' pid) pid attr k' eid' ∧
      (attr = true → s2.typesD = dictRemove s.typesD k' ∧ s2.execsD = s.execsD) ∧
      (attr = false → s2.execsD = dictRemove s.execsD k' ∧
        s2.typesD = s.typesD) := by
  unfold embedStep at h
  split at h
  · injection h with h
    exact Or.inl h.symm
  · rename_i eid' hlk
    split at h
    · injection h with h
      exact Or.inl h.symm
    · rename_i e' hg
      split at h
      · injection h with h
        exact Or.inl h.symm
      · rename_i fromT k0 pid hf
        split at h
        · cases h
        · rename_i hcr
          refine Or.inr ⟨eid', e', fromT, k0, pid, hlk, hg, hf, hcr, ?_⟩
          split at h
          · rename_i hattr
            injection h with h
            subst h
            refine ⟨rfl, fun _ => ⟨rfl, rfl⟩, fun hfa => ?_⟩
            rw [hattr] at hfa
            simp at hfa
          · rename_i hattr
            injection h with h
            subst h
            have hfa : attr = false := by
              cases attr
              · rfl
              · exact absurd rfl hattr
            refine ⟨rfl, fun hta => ?_, fun _ => ⟨rfl, rfl⟩⟩
            rw [hfa] at hta
            simp at hta

/-- An element that find_embedded_parent resolves against the current state
cannot be (the original record of) a maximal top element. -/
theorem moved_not_maximal (m s : EmbModule) (hsp : spanPres m s)
    (hds : dictSub m s) {eid' : Nat} {e' : ElemObj}
    (hg' : heapGet s.heap eid' = some e') {fromT : Bool} {k0 : String}
    {pid : Nat} (hf' : find_embedded_parent s e' = some (fromT, k0, pid))
    {c : ElemObj} (hgc : heapGet m.heap eid' = some c)
    (hcmax : ∀ k2 did d, (k2, did) ∈ topEntries m →
      heapGet m.heap did = some d → ¬ strictlyInside c d) : False := by
  obtain ⟨hctop, c0, hgc0, hc1, hc2⟩ :=
    find_embedded_parent_sound s e' fromT k0 pid hf'
  have hPidTop : (k0, pid) ∈ topEntries m := by
    rcases List.mem_append.mp hctop with hx | hx
    · exact List.mem_append_left _ (hds.1.subset hx)
    · exact List.mem_append_right _ (hds.2.subset hx)
  obtain ⟨e0, hge0, hes, hest⟩ := spanPres_get hsp hg'
  obtain ⟨c00, hgc00, hcs, hcst⟩ := spanPres_get hsp hgc0
  rw [hgc] at hge0
  injection hge0 with hge0
  subst hge0
  exact hcmax k0 pid c00 hPidTop hgc00 ⟨by omega, by omega⟩

/-- A step on a key other than the tracked one preserves the pre-move
invariant. -/
theorem preInv_step (m : EmbModule) (attr : Bool) (key : String) (eid : Nat)
    (hkeysm : ((collOf m attr).map Prod.fst).Nodup)
    {s s2 : EmbModule} {k' : String} (hk : k' ≠ key)
    (hstep : embedStep attr s k' = .ok s2)
    (hinv : preInv m attr key eid s) : preInv m attr key eid s2 := by
  obtain ⟨hsp, hds, hsv, hlk⟩ := hinv
  rcases embedStep_cases attr s s2 k' hstep with rfl | hmove
  · exact ⟨hsp, hds, hsv, hlk⟩
  obtain ⟨eid', e', fromT, k0, pid, hlk', hg', hf', hcr, hheap2, hTr, hFa⟩ := hmove
  have hsub : List.Sublist (collOf s attr) (collOf m attr) := by
    cases attr
    · exact hds.2
    · exact hds.1
  have hkeyss : ((collOf s attr).map Prod.fst).Nodup :=
    List.Nodup.sublist (hsub.map Prod.fst) hkeysm
  have hsp2 : spanPres m s2 := by
    unfold spanPres at hsp ⊢
    rw [hheap2]
    exact heapSpanEq_trans
      (heapSpanEq_trans (heapSpanEq_addNested _ _ _ _ _)
        (heapSpanEq_setParent _ _ _)) hsp
  have hds2 : dictSub m s2 := by
    cases attr
    · obtain ⟨h1, h2⟩ := hFa rfl
      exact ⟨h2 ▸ hds.1, h1 ▸ List.Sublist.trans (dictRemove_sublist _ _) hds.2⟩
    · obtain ⟨h1, h2⟩ := hTr rfl
      exact ⟨h1 ▸ List.Sublist.trans (dictRemove_sublist _ _) hds.1, h2 ▸ hds.2⟩
  have hsv2 : survivors m s2 := by
    intro k cid c hgc hcmax
    obtain ⟨hst, hse⟩ := hsv k cid c hgc hcmax
    cases attr
    · refine ⟨fun hmemT => ?_, fun hmemE => ?_⟩
      · rw [(hFa rfl).2]
        exact hst hmemT
      · rw [(hFa rfl).1]
        have hin_s := hse hmemE
        by_cases hkk : k = k'
        · subst hkk
          exfalso
          have hlkc : List.lookup k (collOf s false) = some cid :=
            lookup_eq_of_mem_nodup hkeyss hin_s
          rw [hlk'] at hlkc
          injection hlkc with hlkc
          subst hlkc
          exact moved_not_maximal m s hsp hds hg' hf' hgc hcmax
        · exact mem_dictRemove_of_ne hin_s k' hkk
    · refine ⟨fun hmemT => ?_, fun hmemE => ?_⟩
      · rw [(hTr rfl).1]
        have hin_s := hst hmemT
        by_cases hkk : k = k'
        · subst hkk
          exfalso
          have hlkc : List.lookup k (collOf s true) = some cid :=
            lookup_eq_of_mem_nodup hkeyss hin_s
          rw [hlk'] at hlkc
          injection hlkc with hlkc
          subst hlkc
          exact moved_not_maximal m s hsp hds hg' hf' hgc hcmax
        · exact mem_dictRemove_of_ne hin_s k' hkk
      · rw [(hTr rfl).2]
        exact hse hmemE
  have hlk2 : List.lookup key (collOf s2 attr) = some eid := by
    cases attr
    · show List.lookup key s2.execsD = some eid
      rw [(hFa rfl).1, dictRemove_lookup_ne _ _ _ (Ne.symm hk)]
      exact hlk
    · show List.lookup key s2.typesD = some eid
      rw [(hTr rfl).1, dictRemove_lookup_ne _ _ _ (Ne.symm hk)]
      exact hlk
  exact ⟨hsp2, hds2, hsv2, hlk2⟩

/-- A step on a key other than the tracked one preserves the post-move
invariant. -/
theorem postInv_step (m : EmbModule) (attr : Bool) (key : String)
    (eid cid : Nat)
    (hidsm : ((collOf m attr).map Prod.snd).Nodup)
    (hkeymem : (key, eid) ∈ collOf m attr)
    {s s2 : EmbModule} {k' : String} (hk : k' ≠ key)
    (hstep : embedStep attr s k' = .ok s2)
    (hinv : postInv m attr key eid cid s) : postInv m attr key eid cid s2 := by
  obtain ⟨hsp, hds, hnone, ⟨e2, hge2, hpr⟩, ⟨c2, hgc2, hmemn⟩⟩ := hinv
  rcases embedStep_cases attr s s2 k' hstep with rfl | hmove
  · exact ⟨hsp, hds, hnone, ⟨e2, hge2, hpr⟩, ⟨c2, hgc2, hmemn⟩⟩
  obtain ⟨eid', e', fromT, k0, pid, hlk', hg', hf', hcr, hheap2, hTr, hFa⟩ := hmove
  have hsubA : List.Sublist (collOf s attr) (collOf m attr) := by
    cases attr
    · exact hds.2
    · exact hds.1
  have hne_eid : eid' ≠ eid := by
    intro hc
    subst hc
    have hmem' : (k', eid') ∈ collOf m attr := hsubA.subset (lookup_mem hlk')
    exact hk (key_eq_of_id_nodup hidsm hmem' hkeymem)
  have hsp2 : spanPres m s2 := by
    unfold spanPres at hsp ⊢
    rw [hheap2]
    exact heapSpanEq_trans
      (heapSpanEq_trans (heapSpanEq_addNested _ _ _ _ _)
        (heapSpanEq_setParent _ _ _)) hsp
  have hds2 : dictSub m s2 := by
    cases attr
    · obtain ⟨h1, h2⟩ := hFa rfl
      exact ⟨h2 ▸ hds.1, h1 ▸ List.Sublist.trans (dictRemove_sublist _ _) hds.2⟩
    · obtain ⟨h1, h2⟩ := hTr rfl
      exact ⟨h1 ▸ List.Sublist.trans (dictRemove_sublist _ _) hds.1, h2 ▸ hds.2⟩
  have hnone2 : List.lookup key (collOf s2 attr) = none := by
    cases attr
    · show List.lookup key s2.execsD = none
      rw [(hFa rfl).1, dictRemove_lookup_ne _ _ _ (Ne.symm hk)]
      exact hnone
    · show List.lookup key s2.typesD = none
      rw [(hTr rfl).1, dictRemove_lookup_ne _ _ _ (Ne.symm hk)]
      exact hnone
  have hpr2 : ∃ e3, heapGet s2.heap eid = some e3 ∧ e3.parentRef = some cid := by
    have hsetp : heapGet (setParent s.heap eid' pid) eid = heapGet s.heap eid :=
      heapGet_setParent_ne (Ne.symm hne_eid)
    have hmap :=
      addNested_map_parentRef (setParent s.heap eid' pid) pid attr k' eid' eid
    rw [hsetp, hge2] at hmap
    rw [hheap2]
    cases hg3 : heapGet (addNested (setParent s.heap eid' pid) pid attr k' eid')
        eid with
    | none => rw [hg3] at hmap; simp at hmap
    | some e3 =>
      rw [hg3] at hmap
      simp only [Option.map_some'] at hmap
      injection hmap with hmap
      exact ⟨e3, rfl, hmap.trans hpr⟩
  have hmem2 : ∃ c3, heapGet s2.heap cid = some c3 ∧
      (key, eid) ∈ (if attr then c3.ntypes else c3.nexecs) := by
    have hnest := setParent_map_nested s.heap eid' pid cid
    cases hgc2a : heapGet (setParent s.heap eid' pid) cid with
    | none => rw [hgc2a, hgc2] at hnest; simp at hnest
    | some c2a =>
      rw [hgc2a, hgc2] at hnest
      simp only [Option.map_some'] at hnest
      injection hnest with hnest
      have hnt : c2a.ntypes = c2.ntypes := congrArg Prod.fst hnest
      have hnx : c2a.nexecs = c2.nexecs := congrArg Prod.snd hnest
      by_cases hpc : pid = cid
      · subst hpc
        have hself := heapGet_addNested_self attr k' eid' hgc2a
        rw [hheap2]
        refine ⟨_, hself, ?_⟩
        cases attr
        · show (key, eid) ∈ ({ c2a with nexecs := dictInsert c2a.nexecs k' eid' }
            : ElemObj).nexecs
          have hm0 : (key, eid) ∈ c2a.nexecs := by
            rw [hnx]
            exact hmemn
          exact dictInsert_mem_preserved hm0 k' eid' (Ne.symm hk)
        · show (key, eid) ∈ ({ c2a with ntypes := dictInsert c2a.ntypes k' eid' }
            : ElemObj).ntypes
          have hm0 : (key, eid) ∈ c2a.ntypes := by
            rw [hnt]
            exact hmemn
          exact dictInsert_mem_preserved hm0 k' eid' (Ne.symm hk)
      · have haddn : heapGet (addNested (setParent s.heap eid' pid) pid attr k'
            eid') cid = heapGet (setParent s.heap eid' pid) cid :=
          heapGet_addNested_ne (fun hc => hpc hc.symm)
        rw [hheap2, haddn, hgc2a]
        refine ⟨c2a, rfl, ?_⟩
        cases attr
        · show (key, eid) ∈ c2a.nexecs
          rw [hnx]
          exact hmemn
        · show (key, eid) ∈ c2a.ntypes
          rw [hnt]
          exact hmemn
  exact ⟨hsp2, hds2, hnone2, hpr2, hmem2⟩

/-- Direct evaluation of the tracked iteration once lookup, heap read and
parent search are known. -/
theorem embedStep_eval {attr : Bool} {s : EmbModule} {key : String}
    {eid : Nat} {ecur : ElemObj} {fromT : Bool} {kF : String} {pidF : Nat}
    (hlk : List.lookup key (collOf s attr) = some eid)
    (hge : heapGet s.heap eid = some ecur)
    (hf : find_embedded_parent s ecur = some (fromT, kF, pidF)) :
    embedStep attr s key =
      if attr = true ∧ fromT = true then .error ()
      else if attr = true then
        .ok { s with typesD := dictRemove s.typesD key,
                     heap := addNested (setParent s.heap eid pidF) pidF attr
                       key eid }
      else
        .ok { s with execsD := dictRemove s.execsD key,
                     heap := addNested (setParent s.heap eid pidF) pidF attr
                       key eid } := by
  simp only [embedStep, hlk, hge, hf]

/-- The tracked iteration establishes the post-move invariant with the found
container as the new parent. -/
theorem tracked_step_postInv (m : EmbModule) (attr : Bool) (key : String)
    (eid : Nat) {s : EmbModule} (hsp : spanPres m s) (hds : dictSub m s)
    {ecur c0 : ElemObj} {pidF : Nat}
    (hgecur : heapGet s.heap eid = some ecur)
    (hgc0 : heapGet s.heap pidF = some c0)
    (hc1 : ecur.start > c0.start) (hc2 : ecur.stop < c0.stop)
    {s3 : EmbModule}
    (hs3heap : s3.heap = addNested (setParent s.heap eid pidF) pidF attr key eid)
    (hTr : attr = true → s3.typesD = dictRemove s.typesD key ∧
      s3.execsD = s.execsD)
    (hFa : attr = false → s3.execsD = dictRemove s.execsD key ∧
      s3.typesD = s.typesD) :
    postInv m attr key eid pidF s3 := by
  have hne : pidF ≠ eid := by
    intro hc
    subst hc
    rw [hgecur] at hgc0
    injection hgc0 with h
    subst h
    omega
  refine ⟨?_, ?_, ?_, ?_, ?_⟩
  · unfold spanPres at hsp ⊢
    rw [hs3heap]
    exact heapSpanEq_trans
      (heapSpanEq_trans (heapSpanEq_addNested _ _ _ _ _)
        (heapSpanEq_setParent _ _ _)) hsp
  · cases attr
    · obtain ⟨h1, h2⟩ := hFa rfl
      exact ⟨h2 ▸ hds.1, h1 ▸ List.Sublist.trans (dictRemove_sublist _ _) hds.2⟩
    · obtain ⟨h1, h2⟩ := hTr rfl
      exact ⟨h1 ▸ List.Sublist.trans (dictRemove_sublist _ _) hds.1, h2 ▸ hds.2⟩
  · cases attr
    · show List.lookup key s3.execsD = none
      rw [(hFa rfl).1]
      exact dictRemove_lookup_self _ _
    · show List.lookup key s3.typesD = none
      rw [(hTr rfl).1]
      exact dictRemove_lookup_self _ _
  · refine ⟨{ ecur with parentRef := some pidF }, ?_, rfl⟩
    rw [hs3heap, heapGet_addNested_ne hne.symm]
    exact heapGet_setParent_self pidF hgecur
  · have hgp : heapGet (setParent s.heap eid pidF) pidF = some c0 := by
      rw [heapGet_setParent_ne hne]
      exact hgc0
    have hself := heapGet_addNested_self attr key eid hgp
    rw [hs3heap]
    refine ⟨_, hself, ?_⟩
    cases attr
    · show (key, eid) ∈ ({ c0 with nexecs := dictInsert c0.nexecs key eid }
        : ElemObj).nexecs
      exact dictInsert_mem_self _ _ _
    · show (key, eid) ∈ ({ c0 with ntypes := dictInsert c0.ntypes key eid }
        : ElemObj).ntypes
      exact dictInsert_mem_self _ _ _

/-- Running the remaining keys preserves the post-move invariant. -/
theorem runEmbed_post (m : EmbModule) (attr : Bool) (key : String)
    (eid cid : Nat)
    (hidsm : ((collOf m attr).map Prod.snd).Nodup)
    (hkeymem : (key, eid) ∈ collOf m attr) :
    ∀ (ks : List String) (s m2 : EmbModule),
      (∀ k2 ∈ ks, k2 ≠ key) → postInv m attr key eid cid s →
      runEmbed attr ks s = .ok m2 → postInv m attr key eid cid m2 := by
  intro ks
  induction ks with
  | nil =>
    intro s m2 _ hinv hrun
    simp only [runEmbed] at hrun
    injection hrun with hrun
    exact hrun ▸ hinv
  | cons k2 rest ih =>
    intro s m2 hne hinv hrun
    simp only [runEmbed] at hrun
    split at hrun
    · cases hrun
    · rename_i s3 heq
      exact ih s3 m2 (fun k3 hk3 => hne k3 (List.mem_cons_of_mem _ hk3))
        (postInv_step m attr key eid cid hidsm hkeymem
          (hne k2 (List.mem_cons_self _ _)) heq hinv) hrun

/-- Main induction: running a snapshot that still contains the tracked key
from a pre-move state ends in a post-move state for some container that
strictly contained the element originally. -/
theorem runEmbed_main (m : EmbModule) (attr : Bool) (key : String)
    (eid : Nat) (e0 : ElemObj)
    (hkeysm : ((collOf m attr).map Prod.fst).Nodup)
    (hidsm : ((collOf m attr).map Prod.snd).Nodup)
    (hkeymem : (key, eid) ∈ collOf m attr)
    (hge0 : heapGet m.heap eid = some e0)
    (hcont : ∃ kc cidc c, (kc, cidc) ∈ topEntries m ∧
      heapGet m.heap cidc = some c ∧ strictlyInside e0 c) :
    ∀ (ks : List String) (s m2 : EmbModule), key ∈ ks → ks.Nodup →
      preInv m attr key eid s → runEmbed attr ks s = .ok m2 →
      ∃ cid corig, heapGet m.heap cid = some corig ∧
        strictlyInside e0 corig ∧ postInv m attr key eid cid m2 := by
  intro ks
  induction ks with
  | nil => intro s m2 hmem; cases hmem
  | cons k2 rest ih =>
    intro s m2 hmemk hnd hinv hrun
    rw [List.nodup_cons] at hnd
    simp only [runEmbed] at hrun
    by_cases hk2 : k2 = key
    · subst hk2
      obtain ⟨hsp, hds, hsv, hlk⟩ := hinv
      obtain ⟨ecur, hgecur, hes, hest⟩ := spanPres_get_rev hsp hge0
      obtain ⟨kM, cidM, cM, hmemM, hgM, hinM, hmaxM⟩ :=
        exists_maximal_container m e0 hcont
      have hsurvM := hsv kM cidM cM hgM hmaxM
      have hmemMs : (kM, cidM) ∈ topEntries s := by
        rcases List.mem_append.mp hmemM with hx | hx
        · exact List.mem_append_left _ (hsurvM.1 hx)
        · exact List.mem_append_right _ (hsurvM.2 hx)
      obtain ⟨cMs, hgMs, hcs1, hcs2⟩ := spanPres_get_rev hsp hgM
      have hinM1 : e0.start > cM.start := hinM.1
      have hinM2 : e0.stop < cM.stop := hinM.2
      have hfind : (find_embedded_parent s ecur).isSome :=
        find_embedded_parent_isSome s ecur
          ⟨kM, cidM, cMs, hmemMs, hgMs, by omega, by omega⟩
      cases hf : find_embedded_parent s ecur with
      | none => rw [hf] at hfind; cases hfind
      | some tkp =>
        obtain ⟨fromT, kF, pidF⟩ := tkp
        split at hrun
        · cases hrun
        · rename_i s3 heq
          rw [embedStep_eval hlk hgecur hf] at heq
          by_cases hcrash : attr = true ∧ fromT = true
          · rw [if_pos hcrash] at heq
            cases heq
          · rw [if_neg hcrash] at heq
            obtain ⟨hctop, c0, hgc0, hcc1, hcc2⟩ :=
              find_embedded_parent_sound s ecur fromT kF pidF hf
            obtain ⟨c0orig, hgc0orig, hco1, hco2⟩ := spanPres_get hsp hgc0
            refine ⟨pidF, c0orig, hgc0orig, ⟨by omega, by omega⟩, ?_⟩
            have hpost : postInv m attr k2 eid pidF s3 := by
              by_cases hattr : attr = true
              · rw [if_pos hattr] at heq
                injection heq with heq
                subst heq
                exact tracked_step_postInv m attr k2 eid hsp hds hgecur hgc0
                  hcc1 hcc2 rfl (fun _ => ⟨rfl, rfl⟩)
                  (fun hfa => absurd (hattr.symm.trans hfa) (by simp))
              · rw [if_neg hattr] at heq
                injection heq with heq
                subst heq
                have hfa : attr = false := by
                  cases attr
                  · rfl
                  · exact absurd rfl hattr
                exact tracked_step_postInv m attr k2 eid hsp hds hgecur hgc0
                  hcc1 hcc2 rfl
                  (fun hta => absurd (hta.symm.trans hfa) (by simp))
                  (fun _ => ⟨rfl, rfl⟩)
            exact runEmbed_post m attr k2 eid pidF hidsm hkeymem rest s3 m2
              (fun k3 hk3 => fun hc => hnd.1 (hc ▸ hk3)) hpost hrun
    · -- a different key first
      have hmemk2 : key ∈ rest := by
        rcases List.mem_cons.mp hmemk with hc | hc
        · exact absurd hc.symm hk2
        · exact hc
      split at hrun
      · cases hrun
      · rename_i s3 heq
        exact ih s3 m2 hmemk2 hnd.2
          (preInv_step m attr key eid hkeysm hk2 heq hinv) hrun

/-! ## Claim theorems -/

/-- Claim C2 counterexample: for the element named "c" whose parent is the
root element named "p", the code computes full_name "c.p" (child first), not
full_name(parent) ++ "." ++ name = "p.c" as the claim states. -/
theorem c2_counterexample :
    full_name (Anc.mk "c" (some (Anc.mk "p" none))) ≠
      full_name (Anc.mk "p" none) ++ "." ++
        Anc.name (Anc.mk "c" (some (Anc.mk "p" none))) := by
  decide

/-- Claim C2 (amended): full_name(E) equals name(E) ++ "." ++
full_name(parent(E)) when E's parent is non-null — the element's own name
comes first and the ancestor names follow — and equals name(E) when E has
no parent. -/
theorem c2_full_name (n : String) (p : Anc) :
    full_name (Anc.mk n (some p)) = n ++ "." ++ full_name p ∧
    full_name (Anc.mk n none) = n := by
  refine ⟨?_, rfl⟩
  show joinDot (n :: ancestorNames p) = n ++ "." ++ joinDot (ancestorNames p)
  exact joinDot_cons n _ (ancestorNames_ne_nil p)

/-- Claim C3: starting from the empty docstring list set up by the
constructor, any sequence of overwrite_docs calls leaves at most one entry
per (doctype, pointsto) slot; in particular inserting two DocElements with
identical (doctype, pointsto) leaves exactly the second one. -/
theorem c3_overwrite_docs (seq : List DocElement) (d : DocElement)
    (d1 d2 : DocElement)
    (h : d1.doctype = d2.doctype ∧ d1.pointsto = d2.pointsto) :
    slotCount (List.foldl overwrite_docs [] seq) d ≤ 1 ∧
    List.foldl overwrite_docs [] [d1, d2] = [d2] := by
  constructor
  · exact overwrite_docs_fold seq []
      (fun d0 => by simp [slotCount]) d
  · have hs : sameSlot d1 d2 = true := by
      simp [sameSlot, h.1, h.2]
    simp [List.foldl, overwrite_docs, removeFirstSlot, hs]

/-- Witness for C3: two concrete summary fragments with no name attribute
(both pointsto None); the fold leaves exactly the second. -/
theorem c3_witness :
    slotCount (List.foldl overwrite_docs [] [c3d1, c3d2]) c3d2 ≤ 1 ∧
    List.foldl overwrite_docs [] [c3d1, c3d2] = [c3d2] :=
  c3_overwrite_docs [c3d1, c3d2] c3d2 c3d1 c3d2 (by decide)

/-- Claim C7 counterexample: the freshly-initialized Decoratable (all four
offsets zero) at offset 0 satisfies docstart ≤ 0 ≤ docend, so the claim
classifies it "docstring", but find_section returns "body" — the body test
runs before the docstring test. -/
theorem c7_counterexample :
    (Decoratable.mk 0 0 0 0).docstart ≤ (0 : Int) ∧
    (0 : Int) ≤ (Decoratable.mk 0 0 0 0).docend ∧
    find_section (Decoratable.mk 0 0 0 0) 0 ≠ some "docstring" ∧
    find_section (Decoratable.mk 0 0 0 0) 0 = some "body" := by
  decide

/-- Claim C7 (amended): find_section classifies offset c with the signature
test taking priority (c > docend and c - start < 8), then the body test
(start ≤ c ≤ end), then the docstring test (docstart ≤ c ≤ docend), and
returns none only when all three fail. -/
theorem c7_find_section (e : Decoratable) (c : Int) :
    (c > e.docend ∧ c - e.start < 8 → find_section e c = some "signature") ∧
    (¬(c > e.docend ∧ c - e.start < 8) → (e.start ≤ c ∧ c ≤ e.stop) →
      find_section e c = some "body") ∧
    (¬(c > e.docend ∧ c - e.start < 8) → ¬(e.start ≤ c ∧ c ≤ e.stop) →
      (e.docstart ≤ c ∧ c ≤ e.docend) → find_section e c = some "docstring") ∧
    (¬(c > e.docend ∧ c - e.start < 8) → ¬(e.start ≤ c ∧ c ≤ e.stop) →
      ¬(e.docstart ≤ c ∧ c ≤ e.docend) → find_section e c = none) := by
  refine ⟨fun h1 => ?_, fun h1 h2 => ?_, fun h1 h2 h3 => ?_, fun h1 h2 h3 => ?_⟩
  · simp [find_section, h1]
  · simp [find_section, h1, h2]
  · simp [find_section, h1, h2, h3]
  · simp [find_section, h1, h2, h3]

/-- Witness for C7: offset 12 of an element with docend 5 and start 10 is in
the signature window. -/
theorem c7_witness :
    find_section (Decoratable.mk 0 5 10 20) 12 = some "signature" :=
  (c7_find_section (Decoratable.mk 0 5 10 20) 12).1 (by decide)

/-- Claim C9 (code bug): warn never returns normally.  CodeElement.warn
invokes the boolean value of the has_docstring property as a function,
which raises TypeError for every element; Module.warn resolves warn through
super(CodeElement, self), which searches the MRO after CodeElement and finds
no warn method, raising AttributeError for every module. -/
theorem c9_warn_raises (e m : WarnElement) (collection : List String) :
    CodeElement_warn e collection = .error .typeError ∧
    Module_warn m collection = .error .attributeError :=
  ⟨rfl, rfl⟩

/-- Claim C10: get_parameter returns None at index 0, and yields a parameter
only for indices strictly between 0 and len(paramorder) — the first declared
parameter (paramorder[0]) is never consulted. -/
theorem c10_get_parameter (e : ExecParams) :
    get_parameter e 0 = none ∧
    ∀ i : Int, (get_parameter e i).isSome →
      0 < i ∧ i < (e.paramorder.length : Int) := by
  constructor
  · simp [get_parameter]
  · intro i h
    unfold get_parameter at h
    split at h
    · next hc => exact hc
    · simp at h

/-- Claim C6 counterexample: on the module with text "ab", "cd" the offset 1
(character "b", position 1 within line 0) yields linenum = [0, 2]: the
second component is chars[0] - offset = 2, the distance to the end of the
line, not the offset of the character within the line (1). -/
theorem c6_counterexample :
    linenum c6mod 1 = LNResult.found 0 2 ∧
    claimedWithin (charsOf c6mod) 0 1 = 1 ∧
    linenum c6mod 1 ≠ LNResult.found 0 (claimedWithin (charsOf c6mod) 0 1) := by
  decide

/-- Claim C6 (amended): for an indexed module, linenum(offset) returns the
index i of the first line whose cumulative end offset chars[i] is ≥ offset,
together with chars[i] - offset (the distance from the offset to that line's
cumulative end); for a module whose text has not been indexed (empty
refstring) it returns the [-1, -1] sentinel. -/
theorem c6_linenum (m : Module) (index : Int) (i : Nat) (ci : Int) :
    (m.refstring = "" → linenum m index = LNResult.pairUnknown) ∧
    (m.refstring ≠ "" →
      (charsOf m).get? i = some ci → index ≤ ci →
      (∀ j cj, j < i → (charsOf m).get? j = some cj → cj < index) →
      linenum m index = LNResult.found i (ci - index)) := by
  constructor
  · intro h
    simp [linenum, linesOf, h]
  · intro hne hget hle hfirst
    have hlines : linesOf m = splitNl m.refstring.data := by
      simp [linesOf, hne]
    have hlen : 0 < (linesOf m).length := by
      rw [hlines]
      exact List.length_pos.mpr (splitNl_ne_nil _)
    simp only [linenum, if_pos hlen]
    rw [findLine_first (charsOf m) 0 i ci index hget hle hfirst]
    simp

/-- Witness for C6: offset 4 of the module with text "ab", "cd" is on line 1
(cumulative ends [3, 5]); line 0 falls short (3 < 4) and linenum returns
[1, 5 - 4]. -/
theorem c6_witness : linenum c6mod 4 = LNResult.found 1 1 := by
  apply (c6_linenum c6mod 4 1 5).2
  · decide
  · decide
  · decide
  · intro j cj hj hg
    have hj0 : j = 0 := by omega
    subst hj0
    have h3 : (charsOf c6mod).get? 0 = some 3 := by decide
    rw [h3] at hg
    injection hg with h
    omega

/-- Claim C1: an edit applied through update_elements with docdelta = 0 and
target T = charindex(line, column) + charcount shifts, in the affected
section (types and members before the contains boundary, executables at or
after it), exactly the elements whose effective start (absstart for types
and executables, start for members) lies strictly after T, by exactly
charcount on both start and end; all other elements of the section and the
entire other section are untouched. -/
theorem c1_update_elements (m m2 : Module) (line column charcount ci ic : Int)
    (hup : update_elements m line column charcount 0 = some m2)
    (hci : charindex m line column = some ci)
    (hic : contains_index m = some ic) :
    (line < ic →
      m2.types.length = m.types.length ∧
      m2.members.length = m.members.length ∧
      m2.executables = m.executables ∧
      (∀ i t t2, m.types.get? i = some t → m2.types.get? i = some t2 →
        (absstart t > ci + charcount →
          t2.start = t.start + charcount ∧ t2.stop = t.stop + charcount) ∧
        (absstart t ≤ ci + charcount → t2 = t)) ∧
      (∀ i mem mem2, m.members.get? i = some mem → m2.members.get? i = some mem2 →
        (mem.start > ci + charcount →
          mem2.start = mem.start + charcount ∧ mem2.stop = mem.stop + charcount) ∧
        (mem.start ≤ ci + charcount → mem2 = mem))) ∧
    (¬ line < ic →
      m2.executables.length = m.executables.length ∧
      m2.types = m.types ∧
      m2.members = m.members ∧
      (∀ i x x2, m.executables.get? i = some x → m2.executables.get? i = some x2 →
        (absstart x > ci + charcount →
          x2.start = x.start + charcount ∧ x2.stop = x.stop + charcount) ∧
        (absstart x ≤ ci + charcount → x2 = x))) := by
  simp only [update_elements, hci, hic] at hup
  by_cases hl : line < ic
  · rw [if_pos hl] at hup
    injection hup with hup
    subst hup
    refine ⟨fun _ => ⟨by simp, by simp, by simp, ?_, ?_⟩, fun hn => absurd hl hn⟩
    · intro i t t2 hget hget2
      simp only [List.get?_map, hget, Option.map_some] at hget2
      injection hget2 with hget2
      exact shift_case_rt t t2 (ci + charcount) charcount hget2
    · intro i mem mem2 hget hget2
      simp only [List.get?_map, hget, Option.map_some] at hget2
      injection hget2 with hget2
      exact shift_case_member mem mem2 (ci + charcount) charcount hget2
  · rw [if_neg hl] at hup
    injection hup with hup
    subst hup
    refine ⟨fun hy => absurd hy hl, fun _ => ⟨by simp, by simp, by simp, ?_⟩⟩
    intro i x x2 hget hget2
    simp only [List.get?_map, hget, Option.map_some] at hget2
    injection hget2 with hget2
    exact shift_case_rt x x2 (ci + charcount) charcount hget2

/-- Witness for C1: on c1mod (boundary line 1, edit at line 3 column 0 with
charcount 3, so target 27) the executable starting at 28 is shifted to
[31, 33] and the executable starting at 10 is untouched. -/
theorem c1_witness :
    ((⟨31, 33, 3, 3, false⟩ : RtElement).start =
        (⟨28, 30, 0, 0, false⟩ : RtElement).start + 3 ∧
      (⟨31, 33, 3, 3, false⟩ : RtElement).stop =
        (⟨28, 30, 0, 0, false⟩ : RtElement).stop + 3) ∧
    (⟨10, 20, 0, 0, false⟩ : RtElement) = (⟨10, 20, 0, 0, false⟩ : RtElement) := by
  have H := (c1_update_elements c1mod c1mod2 3 0 3 24 1
    (by decide) (by decide) (by decide)).2 (by decide)
  exact ⟨(H.2.2.2 0 ⟨28, 30, 0, 0, false⟩ ⟨31, 33, 3, 3, false⟩
      (by decide) (by decide)).1 (by decide),
    (H.2.2.2 1 ⟨10, 20, 0, 0, false⟩ ⟨10, 20, 0, 0, false⟩
      (by decide) (by decide)).2 (by decide)⟩

/-- Claim C4 (code bug): in c4world neither a nor b records any assignment,
so no executable reachable from a mutates "x" and the claim requires a falsy
result; yet changed on a returns the truthy qualified name "moda.b", because
the dependency test compares the recursive result with "" while changed only
ever returns None or a nonempty name (None != "" is True in Python).  The
direct %-prefix detection itself works: changed on c, which assigns "x%y",
returns "modc.c". -/
theorem c4_changed_false_positive :
    c4execA.assignments = [] ∧ c4execB.assignments = [] ∧
    (changedF c4world "x" 5 c4execC []).map Prod.fst = some (some "modc.c") ∧
    (changedF c4world "x" 5 c4execA []).map Prod.fst = some (some "moda.b") := by
  decide

/-- Claim C8: changed terminates on every call graph, cyclic ones included:
whenever the fuel exceeds the number of registered executables not yet in
checked, evaluation completes (never exhausts the fuel), because every
executable entered is first appended to the shared checked list and an
already-checked executable returns immediately. -/
theorem c8_changed_terminates (w : World) (symbol : String) :
    ∀ (fuel : Nat) (e : ExecRec) (checked : List String),
      qualifiedName e ∈ worldNames w →
      remaining w checked < fuel →
      (changedF w symbol fuel e checked).isSome := by
  intro fuel
  induction fuel with
  | zero => intro e checked _ h; exact absurd h (Nat.not_lt_zero _)
  | succ n ih =>
    intro e checked hqn hrem
    simp only [changedF]
    by_cases h1 : qualifiedName e ∈ checked
    · simp [h1]
    · rw [if_neg h1]
      by_cases h2 : direct_changed e symbol = true
      · simp [h2]
      · rw [if_neg h2]
        apply loopDeps_isSome w e.moduleName n _
          (fun e2 c2 hq hr => ih e2 c2 hq hr)
          (fun e2 c2 r c3 hx => changedF_checked_mono w symbol n e2 c2 r c3 hx)
        have hstrict := remaining_strict w checked (qualifiedName e) hqn h1
        omega

/-- Witness for C8: the cyclic two-executable world (a calls b, b calls a);
with fuel 3 > remaining 2 the query completes. -/
theorem c8_witness : (changedF c8world "x" 3 c8execA []).isSome :=
  c8_changed_terminates c8world "x" 3 c8execA [] (by decide) (by decide)

/-- Claim C5 counterexample: in c5crash the type "inner" (span 2..5) is
strictly contained in the top-level type "outer" (span 0..10), yet
update_embedded on the types collection does not re-parent it — it raises
AttributeError, because the container found in self.types is a CustomType
and CustomType has no nested types dictionary for
new_parent.types[key] = element. -/
theorem c5_counterexample :
    ((2 : Int) > 0 ∧ (5 : Int) < 10) ∧
    List.lookup "inner" c5crash.typesD = some 1 ∧
    heapGet c5crash.heap 1 = some ⟨2, 5, none, [], []⟩ ∧
    heapGet c5crash.heap 0 = some ⟨0, 10, none, [], []⟩ ∧
    update_embedded c5crash true = Except.error () := by
  decide

/-- Claim C5 (amended): when update_embedded on a collection completes
without raising (that is, no element of a types pass has a type as its
found container), every element of that collection whose span was strictly
inside the span of some top-level type or executable is, afterwards, absent
from the module's collection and present — under the same key — in the
corresponding nested collection of a containing element whose span strictly
contains the element's, with its parent reference set to that container.
Key and id uniqueness of the dictionaries (automatic for Python dicts of
distinct objects) are made explicit. -/
theorem c5_update_embedded (m m2 : EmbModule) (attr : Bool)
    (key : String) (eid : Nat) (e : ElemObj)
    (hkeys : ((collOf m attr).map Prod.fst).Nodup)
    (hids : ((collOf m attr).map Prod.snd).Nodup)
    (hrun : update_embedded m attr = Except.ok m2)
    (hmem : List.lookup key (collOf m attr) = some eid)
    (hheap : heapGet m.heap eid = some e)
    (hcont : ∃ kc cid c, (kc, cid) ∈ topEntries m ∧
      heapGet m.heap cid = some c ∧ e.start > c.start ∧ e.stop < c.stop) :
    List.lookup key (collOf m2 attr) = none ∧
    ∃ cid c2 e2,
      heapGet m2.heap eid = some e2 ∧ e2.parentRef = some cid ∧
      heapGet m2.heap cid = some c2 ∧
      (key, eid) ∈ (if attr then c2.ntypes else c2.nexecs) ∧
      e.start > c2.start ∧ e.stop < c2.stop := by
  have hkeymem : (key, eid) ∈ collOf m attr := lookup_mem hmem
  have hkeyin : key ∈ (collOf m attr).map Prod.fst :=
    List.mem_map.mpr ⟨(key, eid), hkeymem, rfl⟩
  have hcont2 : ∃ kc cidc c, (kc, cidc) ∈ topEntries m ∧
      heapGet m.heap cidc = some c ∧ strictlyInside e c := by
    obtain ⟨kc, cid, c, h1, h2, h3, h4⟩ := hcont
    exact ⟨kc, cid, c, h1, h2, h3, h4⟩
  have hpre : preInv m attr key eid m :=
    ⟨heapSpanEq_refl _, ⟨List.Sublist.refl _, List.Sublist.refl _⟩,
     fun k cid c _ _ => ⟨id, id⟩, hmem⟩
  obtain ⟨cid, corig, hgcorig, hins, hpost⟩ :=
    runEmbed_main m attr key eid e hkeys hids hkeymem hheap hcont2
      ((collOf m attr).map Prod.fst) m m2 hkeyin hkeys hpre hrun
  obtain ⟨hsp2, _hds2, hnone2, ⟨e2, hge2, hpr2⟩, ⟨c2, hgc2, hmemn2⟩⟩ := hpost
  obtain ⟨corig2, hgcorig2, hcs1, hcs2⟩ := spanPres_get hsp2 hgc2
  rw [hgcorig] at hgcorig2
  injection hgcorig2 with hco
  obtain ⟨hi1, hi2⟩ := hins
  subst hco
  exact ⟨hnone2, cid, c2, e2, hge2, hpr2, hgc2, hmemn2, by omega, by omega⟩

/-- Witness for C5: in c5w the executable isub (span 10..50) is strictly
inside osub (span 0..100); after the pass on the executables collection
isub is gone from the module's collection and sits in osub's nested
executables with its parent set to osub. -/
theorem c5_witness :
    List.lookup "isub" (collOf c5wAfter false) = none ∧
    ∃ cid c2 e2,
      heapGet c5wAfter.heap 1 = some e2 ∧ e2.parentRef = some cid ∧
      heapGet c5wAfter.heap cid = some c2 ∧
      ("isub", 1) ∈ (if false then c2.ntypes else c2.nexecs) ∧
      (⟨10, 50, none, [], []⟩ : ElemObj).start > c2.start ∧
      (⟨10, 50, none, [], []⟩ : ElemObj).stop < c2.stop :=
  c5_update_embedded c5w c5wAfter false "isub" 1 ⟨10, 50, none, [], []⟩
    (by decide) (by decide) (by decide) (by decide) (by decide)
    ⟨"osub", 0, ⟨0, 100, none, [], []⟩, by decide, by decide, by decide,
      by decide⟩

/-- Witness for C10: on an executable with two parameters, index 0 still
yields None while index 1 yields a parameter, which lies in the open
interval required by the claim. -/
theorem c10_witness :
    get_parameter c10exec 0 = none ∧
    ((0 : Int) < 1 ∧ (1 : Int) < (c10exec.paramorder.length : Int)) :=
  ⟨(c10_get_parameter c10exec).1, (c10_get_parameter c10exec).2 1 (by decide)⟩

end Fortpy
